import Mathlib

/-!
Shallow embedding of the query-resolution core of `adns_server.py`
(a toy authoritative DNS server), together with proofs about it.

Modelling conventions:
* A fully qualified domain name (`dns.name.Name`) is a list of labels,
  leftmost label first; the root is `[]` and the trailing empty root label
  is left implicit.  Labels are taken to be already case-normalised, so the
  case-insensitive comparisons of `dns.name` become plain equality.
* Rdata is an inductive covering the record types the core inspects
  (A, AAAA, NS, CNAME, DNAME, SOA) plus an opaque catch-all carrying its
  wire length.
* A zone is, as in `dns.zone`, a mapping from owner name to node, where a
  node maps an rdatatype to an rdataset (TTL plus rdata list).
* Machine-level wire encoding is modelled by an explicit octet-count
  function (uncompressed sizes per RFC 1035); `to_wire(max_size=N)` raising
  `TooBig` is modelled as the count exceeding `N`.
* The recursion `process_cname -> find_answer` is unbounded in the Python
  source (bounded in practice by the visited lists); the embedding threads
  a fuel parameter consumed at each `find_answer` entry, with exhaustion
  returning the state unchanged.  All invariants are proved for every fuel.
-/

/-- A DNS label. -/
abbrev Label := String

/-- A fully qualified domain name: list of labels, leftmost first, root = []. -/
abbrev DName := List Label

/-- `q.is_subdomain(z)` in dnspython: `z` is a (possibly equal) suffix of `q`. -/
def is_subdomain (q z : DName) : Bool :=
  q == z ||
    (match q with
     | [] => false
     | _ :: t => is_subdomain t z)

/-- `name.parent()` in dnspython: drop the leftmost label. -/
def parentN (n : DName) : DName := n.tail

/-- The wildcard candidate computed in `process_name`:
`dns.name.Name((b'*',) + sname.labels[1:])`. -/
def wildcardOf (n : DName) : DName := "*" :: n.tail

/-- Lexicographic comparison of label lists (used on reversed names, matching
the canonical DNS ordering of `dns.name.Name.__lt__`). -/
def labelsLt : List Label → List Label → Bool
  | [], [] => false
  | [], _ :: _ => true
  | _ :: _, [] => false
  | a :: as, b :: bs => if a < b then true else if b < a then false else labelsLt as bs

/-- `dns.name.Name.__lt__`: canonical DNS order compares labels from the
rightmost, a proper ancestor sorting before its descendants. -/
def nameLt (a b : DName) : Bool := labelsLt a.reverse b.reverse

/-- One insertion step of insertion sort by `nameLt` (ascending). -/
def insertName (x : DName) : List DName → List DName
  | [] => [x]
  | y :: ys => if nameLt x y then x :: y :: ys else y :: insertName x ys

/-- Python's `sorted` on a list of names (ascending canonical DNS order). -/
def sortNames : List DName → List DName
  | [] => []
  | x :: xs => insertName x (sortNames xs)

/-- `name.relativize(origin)` labels: strip the origin suffix. -/
def relativize (q origin : DName) : List Label :=
  q.take (q.length - origin.length)

/-- Uncompressed wire size of a name: each label costs len+1, plus the root. -/
def nameWire (n : DName) : Nat := (n.map (fun l => l.length + 1)).sum + 1

/-- Rdata: the record types the resolver core inspects, plus a generic
catch-all carrying its rdata wire length. -/
inductive Rdata where
  | aR (addr : Nat)
  | aaaaR (addr : Nat)
  | nsR (target : DName)
  | cnameR (target : DName)
  | dnameR (target : DName)
  | soaR (mname rname : DName) (serial refresh retry expire minimum : Nat)
  | otherR (rdlen : Nat)
deriving DecidableEq

/-- `rdata.target` for the record types that have one; `[]` otherwise
(the Python code only reads `.target` from NS/CNAME/DNAME rdatas). -/
def targetOf : Rdata → DName
  | Rdata.nsR t => t
  | Rdata.cnameR t => t
  | Rdata.dnameR t => t
  | _ => []

/-- Wire length of one rdata (uncompressed). -/
def rdataWire : Rdata → Nat
  | Rdata.aR _ => 4
  | Rdata.aaaaR _ => 16
  | Rdata.nsR t => nameWire t
  | Rdata.cnameR t => nameWire t
  | Rdata.dnameR t => nameWire t
  | Rdata.soaR m r _ _ _ _ _ => nameWire m + nameWire r + 20
  | Rdata.otherR k => k

/-- An rdataset: rdatatype, TTL and the rdatas. -/
structure Rdataset where
  rdtype : Nat
  ttl : Nat
  rdatas : List Rdata
deriving DecidableEq

/-- A node: the rdatasets present at one owner name (ENT nodes have `[]`). -/
abbrev Node := List Rdataset

/-- A zone: origin plus the owner-name-to-node mapping of `dns.zone.Zone`. -/
structure Zone where
  origin : DName
  nodes : List (DName × Node)
deriving DecidableEq

/-- Association-list lookup by name (decidable equality on names). -/
def lookupN {β : Type} (l : List (DName × β)) (n : DName) : Option β :=
  (l.find? (fun p => p.1 == n)).map (fun p => p.2)

/-- `zone.get_node(name)`: `none` exactly when the name does not exist. -/
def getNode (z : Zone) (n : DName) : Option Node := lookupN z.nodes n

/-- `zone.get_rdataset(name, t)`: the rdataset of type `t` at `name`. -/
def get_rdataset (z : Zone) (n : DName) (t : Nat) : Option Rdataset :=
  (getNode z n).bind (fun node => node.find? (fun r => r.rdtype == t))

/-- The zone store `ZONEDICT`: zones keyed by origin name. -/
abbrev Store := List (DName × Zone)

/-- `find_zone(qname)`: walk the origins in reverse sorted (descending
canonical) order, returning the first of which qname is a subdomain. -/
def find_zone (store : Store) (q : DName) : Option Zone :=
  ((sortNames (store.map (fun p => p.1))).reverse.find?
      (fun zname => is_subdomain q zname)).bind
    (fun zname => lookupN store zname)

/-- `query_meta_type(qtype)`. -/
def query_meta_type (qtype : Nat) : Bool := 128 ≤ qtype && qtype ≤ 255

/-- An RRset as placed in a response message section. -/
structure RRset where
  owner : DName
  rdtype : Nat
  ttl : Nat
  rdatas : List Rdata
deriving DecidableEq

/-- The mutable response-building state of `DNSresponse`. -/
structure RState where
  rcode : Nat
  flagsAA : Bool
  flagsTC : Bool
  flagsRD : Bool
  answer : List RRset
  authority : List RRset
  additional : List RRset
  is_referral : Bool
  cname_owner_list : List DName
  dname_owner_list : List DName
  ednsVersion : Option Nat
  ednsPayload : Nat
deriving DecidableEq

/-- `message.set_rcode`. -/
def setRcode (s : RState) (rc : Nat) : RState := { s with rcode := rc }

/-- `DNSresponse.add_soa`: replace the authority section with the zone's SOA
RRset, its TTL lowered to the SOA MINIMUM field.  A zone parsed from a file
always holds an SOA at the origin whose first rdata is an SOA rdata; the
`none` fallbacks model the (unreachable) attribute errors the Python code
would raise there. -/
def add_soa (z : Zone) (s : RState) : RState :=
  match get_rdataset z z.origin 6 with
  | none => s
  | some soa =>
    let minTtl := match soa.rdatas.head? with
      | some (Rdata.soaR _ _ _ _ _ _ m) => min soa.ttl m
      | _ => soa.ttl
    { s with authority := [⟨z.origin, 6, minTtl, soa.rdatas⟩] }

/-- One iteration of the glue loop in `do_referral`: for an in-bailiwick NS
target, append its A and AAAA RRsets (when present) to additional. -/
def glue_step (z : Zone) (sname : DName) (acc : RState) (rd : Rdata) : RState :=
  if is_subdomain (targetOf rd) sname then
    let acc1 := match get_rdataset z (targetOf rd) 1 with
      | some r4 => { acc with additional := acc.additional ++ [⟨targetOf rd, 1, r4.ttl, r4.rdatas⟩] }
      | none => acc
    match get_rdataset z (targetOf rd) 28 with
    | some r6 => { acc1 with additional := acc1.additional ++ [⟨targetOf rd, 28, r6.ttl, r6.rdatas⟩] }
    | none => acc1
  else acc

/-- `DNSresponse.do_referral`: NS RRset into authority, then in-bailiwick
A/AAAA glue into additional. -/
def do_referral (z : Zone) (sname : DName) (rds : Rdataset) (s : RState) : RState :=
  rds.rdatas.foldl (glue_step z sname)
    { s with is_referral := true,
             authority := s.authority ++ [⟨sname, 2, rds.ttl, rds.rdatas⟩] }

/-- The two mutations `process_cname` performs before chasing the target:
record `sname` in the visited list and append the CNAME RRset with owner
`rrname` to the answer section. -/
def cname_append (rrname sname : DName) (rd : Rdataset) (s : RState) : RState :=
  { s with cname_owner_list := s.cname_owner_list ++ [sname],
           answer := s.answer ++ [⟨rrname, 5, rd.ttl, rd.rdatas⟩] }

/-- The two mutations `process_dname` performs before synthesis: record
`sname` in the visited list and append the DNAME RRset (owner `sname`). -/
def dname_append (sname : DName) (rd : Rdataset) (s : RState) : RState :=
  { s with dname_owner_list := s.dname_owner_list ++ [sname],
           answer := s.answer ++ [⟨sname, 39, rd.ttl, rd.rdatas⟩] }

/-- `DNSresponse.process_cname`.  `recurse` stands for the recursive call
`self.find_answer` (fuel-threaded by the caller). -/
def process_cname (recurse : DName → Nat → RState → RState)
    (rrname sname : DName) (stype : Nat) (cname_rdataset : Rdataset)
    (s : RState) : RState :=
  if sname ∈ s.cname_owner_list then setRcode s 2
  else
    match cname_rdataset.rdatas.head? with
    | none => cname_append rrname sname cname_rdataset s
    | some rd => recurse (targetOf rd) stype (cname_append rrname sname cname_rdataset s)

/-- `DNSresponse.process_dname`: append the DNAME, synthesize the CNAME
(YXDOMAIN if the synthesized name exceeds 255 octets on the wire), then
chain through `process_cname`. -/
def process_dname (recurse : DName → Nat → RState → RState)
    (qname sname : DName) (stype : Nat) (dname_rdataset : Rdataset)
    (s : RState) : RState :=
  if sname ∈ s.dname_owner_list then setRcode s 2
  else
    match dname_rdataset.rdatas.head? with
    | none => dname_append sname dname_rdataset s
    | some rd =>
      if 255 < nameWire (relativize qname sname ++ targetOf rd) then
        setRcode (dname_append sname dname_rdataset s) 6
      else
        process_cname recurse qname qname stype
          ⟨5, dname_rdataset.ttl, [Rdata.cnameR (relativize qname sname ++ targetOf rd)]⟩
          (dname_append sname dname_rdataset s)

/-- `DNSresponse.find_rrtype`: CNAME first, then the queried type, else
NODATA (SOA into authority). -/
def find_rrtype (recurse : DName → Nat → RState → RState)
    (z : Zone) (sname : DName) (stype : Nat) (wildcard_match : Option DName)
    (s : RState) : RState :=
  let rrname := wildcard_match.getD sname
  match get_rdataset z sname 5 with
  | some cn => process_cname recurse rrname sname stype cn s
  | none =>
    match get_rdataset z sname stype with
    | some rd => { s with answer := s.answer ++ [⟨rrname, stype, rd.ttl, rd.rdatas⟩] }
    | none => add_soa z s

/-- `DNSresponse.process_name`: classify one visited name; `true` means the
walk is finished. -/
def process_name (recurse : DName → Nat → RState → RState)
    (z : Zone) (qname sname : DName) (stype : Nat) (s : RState) : Bool × RState :=
  match getNode z sname with
  | none =>
    if (getNode z (wildcardOf sname)).isSome then
      (true, find_rrtype recurse z (wildcardOf sname) stype (some sname) s)
    else
      (true, add_soa z (setRcode s 3))
  | some _ =>
    match get_rdataset z sname 39 with
    | some dn => (true, process_dname recurse qname sname stype dn s)
    | none =>
      match (if sname ≠ z.origin then get_rdataset z sname 2 else none) with
      | some ns => (true, do_referral z sname ns s)
      | none =>
        if sname ≠ qname then (false, s)
        else (true, find_rrtype recurse z sname stype none s)

/-- The `while` loop of `find_answer_in_zone`.  The label list is carried
reversed so that Python's `label_list.pop()` becomes taking the head. -/
def walk_loop (recurse : DName → Nat → RState → RState)
    (z : Zone) (qname : DName) (stype : Nat) :
    List Label → DName → RState → RState
  | [], current, s => (process_name recurse z qname current stype s).2
  | l :: rest, current, s =>
    match process_name recurse z qname current stype s with
    | (true, s') => s'
    | (false, s') => walk_loop recurse z qname stype rest (l :: current) s'

/-- `DNSresponse.find_answer_in_zone`: top-down walk from the zone origin
toward the query name. -/
def find_answer_in_zone (recurse : DName → Nat → RState → RState)
    (z : Zone) (qname : DName) (stype : Nat) (s : RState) : RState :=
  walk_loop recurse z qname stype (relativize qname z.origin).reverse z.origin s

/-- `DNSresponse.find_answer`, with fuel consumed at each entry: REFUSED if
no zone matches and the answer section is still empty. -/
def find_answer (store : Store) : Nat → DName → Nat → RState → RState
  | 0, _, _, s => s
  | fuel + 1, qname, stype, s =>
    match find_zone store qname with
    | none => if s.answer.isEmpty then setRcode s 5 else s
    | some z => find_answer_in_zone (find_answer store fuel) z qname stype s

/-- Server preferences relevant to the core (`Prefs.EDNS_UDP_MAX`,
`Prefs.EDNS_UDP_ADV`). -/
structure SrvPrefs where
  ednsUdpMax : Nat
  ednsUdpAdv : Nat
deriving DecidableEq

/-- A parsed query as the response builder sees it: the single question,
the EDNS version (`-1` = no OPT, as in `dns.message.edns`), the advertised
payload, the RD flag and the transport. -/
structure QueryMsg where
  qname : DName
  qtype : Nat
  qclass : Nat
  edns : Int
  payload : Nat
  flagsRD : Bool
  tcp : Bool
deriving DecidableEq

/-- `dns.message.make_response(query)`: echo the question, set QR, copy RD,
start at NOERROR; the reply carries an OPT iff the query did (payload 8192
until `prepare_response` overrides it). -/
def initResponse (q : QueryMsg) : RState :=
  { rcode := 0, flagsAA := false, flagsTC := false, flagsRD := q.flagsRD,
    answer := [], authority := [], additional := [],
    is_referral := false, cname_owner_list := [], dname_owner_list := [],
    ednsVersion := if 0 ≤ q.edns then some 0 else none,
    ednsPayload := if 0 ≤ q.edns then 8192 else 0 }

/-- The tail of `prepare_response` after the EDNS block: class check,
meta-type check, resolution, AA policy. -/
def prepare_rest (store : Store) (fuel : Nat)
    (q : QueryMsg) (s : RState) : RState :=
  if q.qclass ≠ 1 then setRcode s 5
  else
    let s1 := if query_meta_type q.qtype then setRcode s 4 else s
    let s2 := find_answer store fuel q.qname q.qtype s1
    if (!s2.is_referral) || (!s2.answer.isEmpty) then { s2 with flagsAA := true } else s2

/-- `DNSresponse.prepare_response`: EDNS negotiation (note the source's
`elif edns > 0` BADVERS branch is unreachable, faithfully preserved), then
`prepare_rest`. -/
def prepare_response (prefs : SrvPrefs) (store : Store) (fuel : Nat)
    (q : QueryMsg) : RState :=
  let s0 := initResponse q
  if prefs.ednsUdpMax = 0 then
    prepare_rest store fuel q { s0 with ednsVersion := none, ednsPayload := 0 }
  else if q.edns ≠ -1 then
    prepare_rest store fuel q
      { s0 with ednsVersion := some 0, ednsPayload := prefs.ednsUdpAdv }
  else if q.edns > 0 then
    setRcode s0 16
  else
    prepare_rest store fuel q s0

/-- `DNSresponse.max_size`: the transport size budget. -/
def max_size (prefs : SrvPrefs) (q : QueryMsg) : Nat :=
  if q.tcp then 65533
  else if prefs.ednsUdpMax = 0 || q.edns == -1 then 512
  else min q.payload prefs.ednsUdpMax

/-- Wire size of one RRset, uncompressed: each record costs
owner + type/class/ttl/rdlen (10) + rdata. -/
def rrsetWire (rr : RRset) : Nat :=
  (rr.rdatas.map (fun rd => nameWire rr.owner + 10 + rdataWire rd)).sum

/-- Total wire size of a list of RRsets. -/
def sectionWire (l : List RRset) : Nat := (l.map rrsetWire).sum

/-- Wire size of the OPT pseudo-record, if the response carries one. -/
def optWire (s : RState) : Nat := match s.ednsVersion with | some _ => 11 | none => 0

/-- Wire size of the whole response message (header, echoed question,
sections, OPT), modelling `message.to_wire`'s octet count. -/
def encodedSize (q : QueryMsg) (s : RState) : Nat :=
  12 + nameWire q.qname + 4 +
    sectionWire s.answer + sectionWire s.authority + sectionWire s.additional + optWire s

/-- `DNSresponse.truncate`: set TC, drop the three sections (the OPT is kept:
it is not stored in `response.additional` in dnspython). -/
def truncateResp (s : RState) : RState :=
  { s with flagsTC := true, answer := [], authority := [], additional := [] }

/-- `DNSresponse.to_wire` (sans the TCP length prefix): encode within the
budget, else truncate and re-encode without a size limit.  Returns the
emitted message and its wire size. -/
def to_wire (prefs : SrvPrefs) (q : QueryMsg) (s : RState) : RState × Nat :=
  let m := max_size prefs q
  if encodedSize q s ≤ m then (s, encodedSize q s)
  else (truncateResp s, encodedSize q (truncateResp s))

/-- The full `DNSresponse.__init__` pipeline: build then encode. -/
def handle_query (prefs : SrvPrefs) (store : Store) (fuel : Nat)
    (q : QueryMsg) : RState × Nat :=
  to_wire prefs q (prepare_response prefs store fuel q)

/-- The parent-climbing loop inside `Zone.get_ent_nodes` for one name:
collect each ancestor strictly between the name and the origin that has no
node yet. -/
def ent_chain (znodes : List (DName × Node)) (origin : DName) : DName → List DName
  | [] => []
  | _ :: rest =>
    if rest = origin then []
    else
      (if (lookupN znodes rest).isSome then [] else [rest]) ++
        ent_chain znodes origin rest

/-- `Zone.get_ent_nodes`: the empty non-terminals of a parsed zone. -/
def get_ent_nodes (znodes : List (DName × Node)) (origin : DName) : List DName :=
  (((znodes.map (fun p => p.1)).filter (fun n => n ≠ origin)).flatMap
      (ent_chain znodes origin)).dedup

/-- `Zone.add_nodes`: `get_node(entry, create=True)` for each entry. -/
def add_nodes (znodes : List (DName × Node)) (ents : List DName) :
    List (DName × Node) :=
  ents.foldl
    (fun acc e => if (lookupN acc e).isSome then acc else acc ++ [(e, [])]) znodes

/-- `Zone.__init__` after parsing: materialize the empty non-terminals. -/
def zone_init (origin : DName) (parsed : List (DName × Node)) : Zone :=
  ⟨origin, add_nodes parsed (get_ent_nodes parsed origin)⟩

/-! ### Concrete data used by the witnesses and counterexamples -/

/-- The SOA rdataset of the demonstration zone (TTL 3600, MINIMUM 60). -/
def soaRd : Rdataset := ⟨6, 3600, [Rdata.soaR ["ns","example"] ["root","example"] 1 2 3 4 60]⟩

/-- The parsed contents of the demonstration zone `example.`, mirroring the
scenario zone of the specification (wildcard, CNAME, delegation, DNAME,
plus one large opaque record). -/
def demoParsed : List (DName × Node) :=
  [ (["example"], [soaRd, ⟨2, 3600, [Rdata.nsR ["ns","example"]]⟩]),
    (["ns","example"], [⟨1, 3600, [Rdata.aR 1]⟩]),
    (["a","example"], [⟨1, 3600, [Rdata.aR 1]⟩]),
    (["*","w","example"], [⟨1, 3600, [Rdata.aR 9]⟩]),
    (["cname","example"], [⟨5, 300, [Rdata.cnameR ["a","example"]]⟩]),
    (["sub","example"], [⟨2, 3600, [Rdata.nsR ["ns","sub","example"]]⟩]),
    (["ns","sub","example"], [⟨1, 3600, [Rdata.aR 2]⟩]),
    (["alias","example"], [⟨39, 300, [Rdata.dnameR ["t","example"]]⟩]),
    (["t","example"], [⟨1, 3600, [Rdata.aR 3]⟩]),
    (["big","example"], [⟨16, 3600, [Rdata.otherR 70000]⟩]) ]

/-- The demonstration zone after ENT materialization. -/
def demoZone : Zone := zone_init ["example"] demoParsed

/-- A second, minimal zone `sub2.example.`. -/
def demoZone2 : Zone :=
  zone_init ["sub2","example"]
    [ (["sub2","example"],
        [⟨6, 300, [Rdata.soaR ["ns","example"] ["root","example"] 1 2 3 4 30]⟩,
         ⟨2, 300, [Rdata.nsR ["ns","example"]]⟩]),
      (["a","sub2","example"], [⟨1, 300, [Rdata.aR 7]⟩]) ]

/-- A one-zone store. -/
def demoStore : Store := [(["example"], demoZone)]

/-- A two-zone store with nested origins. -/
def demoStore2 : Store := [(["example"], demoZone), (["sub2","example"], demoZone2)]

/-- Default server preferences (EDNS max 1432, advertised 1232). -/
def demoPrefs : SrvPrefs := ⟨1432, 1232⟩

/-- A plain UDP query without EDNS. -/
def mkQ (n : DName) (t : Nat) : QueryMsg := ⟨n, t, 1, -1, 0, false, false⟩

/-- A response state with non-empty sections and visited lists, used to
demonstrate replacement/guard behaviour. -/
def demoStateA : RState :=
  { rcode := 0, flagsAA := false, flagsTC := false, flagsRD := false,
    answer := [⟨["p"], 5, 1, [Rdata.cnameR ["q"]]⟩],
    authority := [⟨["q"], 2, 1, []⟩], additional := [],
    is_referral := false, cname_owner_list := [["p"]],
    dname_owner_list := [["d"]], ednsVersion := none, ednsPayload := 0 }

/-! ### Frame lemmas: which fields each helper leaves untouched -/

theorem setRcode_frame (s : RState) (rc : Nat) :
    (setRcode s rc).answer = s.answer ∧ (setRcode s rc).flagsAA = s.flagsAA ∧
    (setRcode s rc).ednsVersion = s.ednsVersion ∧
    (setRcode s rc).cname_owner_list = s.cname_owner_list ∧
    (setRcode s rc).dname_owner_list = s.dname_owner_list := by
  simp [setRcode]

theorem add_soa_frame (z : Zone) (s : RState) :
    (add_soa z s).answer = s.answer ∧ (add_soa z s).rcode = s.rcode ∧
    (add_soa z s).flagsAA = s.flagsAA ∧ (add_soa z s).ednsVersion = s.ednsVersion ∧
    (add_soa z s).cname_owner_list = s.cname_owner_list ∧
    (add_soa z s).dname_owner_list = s.dname_owner_list := by
  unfold add_soa
  cases get_rdataset z z.origin 6 <;> simp

theorem glue_step_frame (z : Zone) (sname : DName) (acc : RState) (rd : Rdata) :
    (glue_step z sname acc rd).answer = acc.answer ∧
    (glue_step z sname acc rd).rcode = acc.rcode ∧
    (glue_step z sname acc rd).flagsAA = acc.flagsAA ∧
    (glue_step z sname acc rd).ednsVersion = acc.ednsVersion ∧
    (glue_step z sname acc rd).cname_owner_list = acc.cname_owner_list ∧
    (glue_step z sname acc rd).dname_owner_list = acc.dname_owner_list := by
  unfold glue_step
  cases is_subdomain (targetOf rd) sname <;>
    cases get_rdataset z (targetOf rd) 1 <;>
    cases get_rdataset z (targetOf rd) 28 <;> simp

theorem glue_fold_frame (z : Zone) (sname : DName) :
    ∀ (l : List Rdata) (acc : RState),
      (l.foldl (glue_step z sname) acc).answer = acc.answer ∧
      (l.foldl (glue_step z sname) acc).rcode = acc.rcode ∧
      (l.foldl (glue_step z sname) acc).flagsAA = acc.flagsAA ∧
      (l.foldl (glue_step z sname) acc).ednsVersion = acc.ednsVersion ∧
      (l.foldl (glue_step z sname) acc).cname_owner_list = acc.cname_owner_list ∧
      (l.foldl (glue_step z sname) acc).dname_owner_list = acc.dname_owner_list := by
  intro l
  induction l with
  | nil => intro acc; simp
  | cons rd rest ih =>
    intro acc
    have hg := glue_step_frame z sname acc rd
    have hr := ih (glue_step z sname acc rd)
    simp only [List.foldl_cons]
    exact ⟨hr.1.trans hg.1, hr.2.1.trans hg.2.1, hr.2.2.1.trans hg.2.2.1,
      hr.2.2.2.1.trans hg.2.2.2.1, hr.2.2.2.2.1.trans hg.2.2.2.2.1,
      hr.2.2.2.2.2.trans hg.2.2.2.2.2⟩

theorem do_referral_frame (z : Zone) (sname : DName) (rds : Rdataset) (s : RState) :
    (do_referral z sname rds s).answer = s.answer ∧
    (do_referral z sname rds s).rcode = s.rcode ∧
    (do_referral z sname rds s).flagsAA = s.flagsAA ∧
    (do_referral z sname rds s).ednsVersion = s.ednsVersion ∧
    (do_referral z sname rds s).cname_owner_list = s.cname_owner_list ∧
    (do_referral z sname rds s).dname_owner_list = s.dname_owner_list := by
  unfold do_referral
  have h := glue_fold_frame z sname rds.rdatas
    { s with is_referral := true,
             authority := s.authority ++ [⟨sname, 2, rds.ttl, rds.rdatas⟩] }
  simpa using h

/-! ### C10: SOA placement -/

/-- C10: whenever the resolver adds the SOA (NXDOMAIN and NODATA both go
through `add_soa`), the authority section afterwards is exactly that single
SOA RRset — earlier authority content is replaced — and its TTL is the
minimum of the zone SOA RRset's TTL and the SOA MINIMUM field. -/
theorem c10_add_soa_replaces (z : Zone) (s : RState) (soa : Rdataset)
    (mn rn : DName) (se rf rt ex mi : Nat)
    (h : get_rdataset z z.origin 6 = some soa)
    (hh : soa.rdatas.head? = some (Rdata.soaR mn rn se rf rt ex mi)) :
    (add_soa z s).authority = [⟨z.origin, 6, min soa.ttl mi, soa.rdatas⟩] := by
  simp only [add_soa, h, hh]

/-- Concrete instance of `c10_add_soa_replaces` on the demonstration zone,
starting from a state with a non-empty authority section. -/
theorem c10_add_soa_replaces_witness :
    (add_soa demoZone demoStateA).authority =
      [⟨["example"], 6, min 3600 60, soaRd.rdatas⟩] :=
  c10_add_soa_replaces demoZone demoStateA soaRd
    ["ns","example"] ["root","example"] 1 2 3 4 60 (by decide) (by decide)

/-! ### C7: name outside every loaded zone -/

/-- C7: when `find_zone` yields no zone for the (current) query name,
`find_answer` sets RCODE REFUSED if the answer section is empty and leaves
the whole state unchanged (in particular the RCODE) if a prior alias step
already placed records in the answer section. -/
theorem c7_refused_outside_zones (store : Store) (fuel : Nat) (qname : DName)
    (stype : Nat) (s : RState) (h : find_zone store qname = none) :
    (s.answer = [] → find_answer store (fuel + 1) qname stype s = setRcode s 5) ∧
    (s.answer ≠ [] → find_answer store (fuel + 1) qname stype s = s) := by
  constructor <;> intro ha
  · simp [find_answer, h, List.isEmpty_iff, ha]
  · simp [find_answer, h, List.isEmpty_iff, ha]

/-- Concrete instances of `c7_refused_outside_zones`: a name under no loaded
origin is REFUSED on an empty answer section, and left untouched on a
non-empty one. -/
theorem c7_refused_outside_zones_witness :
    find_answer demoStore (4 + 1) ["x","other"] 1 (initResponse (mkQ ["x","other"] 1)) =
      setRcode (initResponse (mkQ ["x","other"] 1)) 5 ∧
    find_answer demoStore (4 + 1) ["x","other"] 1 demoStateA = demoStateA :=
  ⟨(c7_refused_outside_zones demoStore 4 ["x","other"] 1 _ (by decide)).1 (by decide),
   (c7_refused_outside_zones demoStore 4 ["x","other"] 1 demoStateA (by decide)).2 (by decide)⟩

/-! ### C2: EDNS version > 0 (the BADVERS branch is dead code) -/

/-- A UDP query carrying an OPT record at EDNS version 1. -/
def qEdns1 : QueryMsg := ⟨["a","example"], 1, 1, 1, 1232, false, false⟩

/-- C2 (code-bug evidence): with EDNS enabled, a query at EDNS version 1 is
*not* answered with BADVERS: since `edns > 0` implies `edns != -1`, the
source's `elif edns > 0` branch is unreachable, and the query is resolved
normally with a version-0 OPT in the reply. -/
theorem c2_badvers_branch_dead :
    (prepare_response demoPrefs demoStore 10 qEdns1).rcode = 0 ∧
    (prepare_response demoPrefs demoStore 10 qEdns1).ednsVersion = some 0 ∧
    (prepare_response demoPrefs demoStore 10 qEdns1).answer ≠ [] ∧
    (prepare_response demoPrefs demoStore 10 qEdns1).rcode ≠ 16 := by
  decide

/-! ### C1: wildcard answers more than one label below the wildcard parent -/

/-- Query for `a.b.w.example.` A, two labels below `w.example.`. -/
def qC1 : QueryMsg := mkQ ["a","b","w","example"] 1

/-- C1 (code-bug evidence): the zone holds `*.w.example. A`; the query name
`a.b.w.example.` is matched by the wildcard, but the RRset placed in the
answer carries owner `b.w.example.` — the first absent name on the walk,
which `process_name` passes as `wildcard_match` — not the queried name. -/
theorem c1_wildcard_owner_mismatch :
    (prepare_response demoPrefs demoStore 10 qC1).rcode = 0 ∧
    (prepare_response demoPrefs demoStore 10 qC1).answer =
      [⟨["b","w","example"], 1, 3600, [Rdata.aR 9]⟩] ∧
    ((prepare_response demoPrefs demoStore 10 qC1).answer.all
      (fun rr => rr.owner != qC1.qname)) = true := by
  decide

/-! ### C3: meta query types -/

/-- A meta-type (200) query for a name outside every loaded zone. -/
def qC3 : QueryMsg := mkQ ["x","other"] 200

/-- C3 counterexample: for a meta-type query the final RCODE is not always
NOTIMP — resolution continues after NOTIMP is set, and here (query name in
no loaded zone) overwrites it with REFUSED. -/
theorem c3_counterexample :
    query_meta_type qC3.qtype = true ∧ qC3.qclass = 1 ∧
    (prepare_response demoPrefs demoStore 10 qC3).rcode = 5 ∧
    ¬ (prepare_response demoPrefs demoStore 10 qC3).rcode = 4 := by
  decide

/-! ### Resolution never touches the header flags AA/EDNS fields -/

theorem process_cname_keeps (recurse : DName → Nat → RState → RState)
    (hrec : ∀ q t s, (recurse q t s).flagsAA = s.flagsAA ∧
      (recurse q t s).ednsVersion = s.ednsVersion)
    (rrname sname : DName) (stype : Nat) (rd : Rdataset) (s : RState) :
    (process_cname recurse rrname sname stype rd s).flagsAA = s.flagsAA ∧
    (process_cname recurse rrname sname stype rd s).ednsVersion = s.ednsVersion := by
  unfold process_cname
  by_cases hm : sname ∈ s.cname_owner_list
  · simp [hm, setRcode]
  · cases hh : rd.rdatas.head? with
    | none => simp [hm, hh, cname_append]
    | some rd0 =>
      have := hrec (targetOf rd0) stype (cname_append rrname sname rd s)
      simp only [hm, if_false, hh] at *
      simpa [cname_append] using this

theorem process_dname_keeps (recurse : DName → Nat → RState → RState)
    (hrec : ∀ q t s, (recurse q t s).flagsAA = s.flagsAA ∧
      (recurse q t s).ednsVersion = s.ednsVersion)
    (qname sname : DName) (stype : Nat) (rd : Rdataset) (s : RState) :
    (process_dname recurse qname sname stype rd s).flagsAA = s.flagsAA ∧
    (process_dname recurse qname sname stype rd s).ednsVersion = s.ednsVersion := by
  unfold process_dname
  by_cases hm : sname ∈ s.dname_owner_list
  · simp [hm, setRcode]
  · cases hh : rd.rdatas.head? with
    | none => simp [hm, hh, dname_append]
    | some rd0 =>
      by_cases hw : 255 < nameWire (relativize qname sname ++ targetOf rd0)
      · simp [hm, hh, hw, setRcode, dname_append]
      · have := process_cname_keeps recurse hrec qname qname stype
          ⟨5, rd.ttl, [Rdata.cnameR (relativize qname sname ++ targetOf rd0)]⟩
          (dname_append sname rd s)
        simp only [hm, if_false, hh, hw] at *
        simpa [dname_append] using this

theorem find_rrtype_keeps (recurse : DName → Nat → RState → RState)
    (hrec : ∀ q t s, (recurse q t s).flagsAA = s.flagsAA ∧
      (recurse q t s).ednsVersion = s.ednsVersion)
    (z : Zone) (sname : DName) (stype : Nat) (wm : Option DName) (s : RState) :
    (find_rrtype recurse z sname stype wm s).flagsAA = s.flagsAA ∧
    (find_rrtype recurse z sname stype wm s).ednsVersion = s.ednsVersion := by
  unfold find_rrtype
  cases h5 : get_rdataset z sname 5 with
  | some cn => simpa using process_cname_keeps recurse hrec (wm.getD sname) sname stype cn s
  | none =>
    cases ht : get_rdataset z sname stype with
    | some rd => simp
    | none =>
      have := add_soa_frame z s
      exact ⟨this.2.2.1, this.2.2.2.1⟩

theorem process_name_keeps (recurse : DName → Nat → RState → RState)
    (hrec : ∀ q t s, (recurse q t s).flagsAA = s.flagsAA ∧
      (recurse q t s).ednsVersion = s.ednsVersion)
    (z : Zone) (qname sname : DName) (stype : Nat) (s : RState) :
    ((process_name recurse z qname sname stype s).2).flagsAA = s.flagsAA ∧
    ((process_name recurse z qname sname stype s).2).ednsVersion = s.ednsVersion := by
  unfold process_name
  cases h1 : getNode z sname with
  | none =>
    cases h2 : (getNode z (wildcardOf sname)).isSome with
    | true => simpa [h2] using find_rrtype_keeps recurse hrec z (wildcardOf sname) stype (some sname) s
    | false =>
      have ha := add_soa_frame z (setRcode s 3)
      simp only [h2, Bool.false_eq_true, if_false]
      exact ⟨ha.2.2.1.trans (by simp [setRcode]), ha.2.2.2.1.trans (by simp [setRcode])⟩
  | some node =>
    cases h3 : get_rdataset z sname 39 with
    | some dn => simpa using process_dname_keeps recurse hrec qname sname stype dn s
    | none =>
      cases h4 : (if sname ≠ z.origin then get_rdataset z sname 2 else none) with
      | some ns =>
        have hd := do_referral_frame z sname ns s
        simp only [h4]
        exact ⟨hd.2.2.1, hd.2.2.2.1⟩
      | none =>
        by_cases h5 : sname ≠ qname
        · simp [h4, h5]
        · simpa [h4, h5] using find_rrtype_keeps recurse hrec z sname stype none s

theorem walk_loop_keeps (recurse : DName → Nat → RState → RState)
    (hrec : ∀ q t s, (recurse q t s).flagsAA = s.flagsAA ∧
      (recurse q t s).ednsVersion = s.ednsVersion)
    (z : Zone) (qname : DName) (stype : Nat) :
    ∀ (rl : List Label) (cur : DName) (s : RState),
      (walk_loop recurse z qname stype rl cur s).flagsAA = s.flagsAA ∧
      (walk_loop recurse z qname stype rl cur s).ednsVersion = s.ednsVersion := by
  intro rl
  induction rl with
  | nil =>
    intro cur s
    simpa [walk_loop] using process_name_keeps recurse hrec z qname cur stype s
  | cons l rest ih =>
    intro cur s
    have hp := process_name_keeps recurse hrec z qname cur stype s
    unfold walk_loop
    cases hpn : process_name recurse z qname cur stype s with
    | mk fin s' =>
      rw [hpn] at hp
      cases fin with
      | true => exact hp
      | false =>
        have hw := ih (l :: cur) s'
        exact ⟨hw.1.trans hp.1, hw.2.trans hp.2⟩

theorem find_answer_keeps (store : Store) :
    ∀ (fuel : Nat) (qname : DName) (stype : Nat) (s : RState),
      (find_answer store fuel qname stype s).flagsAA = s.flagsAA ∧
      (find_answer store fuel qname stype s).ednsVersion = s.ednsVersion := by
  intro fuel
  induction fuel with
  | zero => intro qname stype s; simp [find_answer]
  | succ f ih =>
    intro qname stype s
    unfold find_answer
    cases hz : find_zone store qname with
    | none =>
      cases he : s.answer.isEmpty <;> simp [he, setRcode]
    | some z =>
      unfold find_answer_in_zone
      exact walk_loop_keeps (find_answer store f) (fun q t s => ih q t s) z qname stype _ _ s

/-! ### C5: the AA flag policy -/

theorem prepare_rest_aa (store : Store) (fuel : Nat) (q : QueryMsg) (s : RState)
    (hcl : q.qclass = 1) (hs : s.flagsAA = false) :
    ((prepare_rest store fuel q s).flagsAA = true ↔
      ((prepare_rest store fuel q s).is_referral = false ∨
        (prepare_rest store fuel q s).answer ≠ [])) := by
  unfold prepare_rest
  rw [if_neg (by simp [hcl])]
  have hk1 : (find_answer store fuel q.qname q.qtype
      (if query_meta_type q.qtype then setRcode s 4 else s)).flagsAA = false := by
    rw [(find_answer_keeps store fuel q.qname q.qtype _).1]
    cases query_meta_type q.qtype <;> simp [setRcode, hs]
  set s2 := find_answer store fuel q.qname q.qtype
    (if query_meta_type q.qtype then setRcode s 4 else s) with hs2
  cases hc : ((!s2.is_referral) || (!s2.answer.isEmpty)) with
  | true =>
    rw [if_pos hc]
    simp only [Bool.or_eq_true, Bool.not_eq_true', List.isEmpty_eq_false] at hc
    exact iff_of_true rfl (by simpa using hc)
  | false =>
    rw [if_neg (by simp [hc])]
    simp only [Bool.or_eq_false_iff, Bool.not_eq_false', List.isEmpty_iff] at hc
    apply iff_of_false
    · rw [hk1]; simp
    · rw [hc.1, hc.2]
      simp

/-- C5: for every single-question IN-class query, the AA flag of the
prepared response is set iff the response is not a referral or the answer
section is non-empty. -/
theorem c5_aa_iff (prefs : SrvPrefs) (store : Store) (fuel : Nat) (q : QueryMsg)
    (hcl : q.qclass = 1) :
    ((prepare_response prefs store fuel q).flagsAA = true ↔
      ((prepare_response prefs store fuel q).is_referral = false ∨
        (prepare_response prefs store fuel q).answer ≠ [])) := by
  unfold prepare_response
  by_cases h1 : prefs.ednsUdpMax = 0
  · rw [if_pos h1]
    exact prepare_rest_aa store fuel q _ hcl rfl
  · by_cases h2 : q.edns ≠ -1
    · rw [if_neg h1, if_pos h2]
      exact prepare_rest_aa store fuel q _ hcl rfl
    · have h3 : q.edns = -1 := not_not.mp h2
      have h4 : ¬ (q.edns > 0) := by rw [h3]; decide
      rw [if_neg h1, if_neg h2, if_neg h4]
      exact prepare_rest_aa store fuel q _ hcl rfl

/-- Concrete instances of `c5_aa_iff`: AA is set on an in-zone positive
answer and clear on a pure referral. -/
theorem c5_aa_iff_witness :
    (prepare_response demoPrefs demoStore 10 (mkQ ["a","example"] 1)).flagsAA = true ∧
    ¬ (prepare_response demoPrefs demoStore 10 (mkQ ["host","sub","example"] 1)).flagsAA = true :=
  ⟨(c5_aa_iff demoPrefs demoStore 10 (mkQ ["a","example"] 1) (by decide)).mpr (by decide),
   fun h =>
     absurd ((c5_aa_iff demoPrefs demoStore 10 (mkQ ["host","sub","example"] 1) (by decide)).mp h)
       (by decide)⟩

/-! ### C4: message size budget and truncation -/

theorem optWire_le (s : RState) : optWire s ≤ 11 := by
  unfold optWire
  cases s.ednsVersion <;> simp

theorem optWire_truncate (s : RState) : optWire (truncateResp s) = optWire s := by
  simp [optWire, truncateResp]

theorem encodedSize_truncate (q : QueryMsg) (s : RState) :
    encodedSize q (truncateResp s) = 12 + nameWire q.qname + 4 + optWire s := by
  simp [encodedSize, truncateResp, sectionWire, optWire]

theorem aa_if_fields (c : Bool) (s2 : RState) :
    ((if c then { s2 with flagsAA := true } else s2)).answer = s2.answer ∧
    ((if c then { s2 with flagsAA := true } else s2)).rcode = s2.rcode ∧
    ((if c then { s2 with flagsAA := true } else s2)).ednsVersion = s2.ednsVersion ∧
    ((if c then { s2 with flagsAA := true } else s2)).is_referral = s2.is_referral ∧
    ((if c then { s2 with flagsAA := true } else s2)).cname_owner_list = s2.cname_owner_list ∧
    ((if c then { s2 with flagsAA := true } else s2)).dname_owner_list = s2.dname_owner_list := by
  cases c <;> simp

theorem prepare_rest_edns (store : Store) (fuel : Nat) (q : QueryMsg) (s : RState) :
    (prepare_rest store fuel q s).ednsVersion = s.ednsVersion := by
  unfold prepare_rest
  by_cases hcl : q.qclass ≠ 1
  · simp [hcl, setRcode]
  · rw [if_neg hcl, (aa_if_fields _ _).2.2.1,
      (find_answer_keeps store fuel q.qname q.qtype _).2]
    cases query_meta_type q.qtype <;> simp [setRcode]

theorem prepare_response_edns_none (prefs : SrvPrefs) (store : Store) (fuel : Nat)
    (q : QueryMsg) (h : q.edns = -1 ∨ prefs.ednsUdpMax = 0) :
    (prepare_response prefs store fuel q).ednsVersion = none := by
  unfold prepare_response
  by_cases h1 : prefs.ednsUdpMax = 0
  · simp only [h1, if_true]
    rw [prepare_rest_edns]
  · have h3 : q.edns = -1 := h.resolve_right h1
    have h2 : ¬ (q.edns ≠ -1) := by simp [h3]
    have h4 : ¬ (q.edns > 0) := by rw [h3]; decide
    simp only [h1, if_false, h2, h4]
    rw [prepare_rest_edns]
    simp [initResponse, h3]

/-- C4 (amended): the emitted wire never exceeds the transport budget for
TCP and for UDP without EDNS (given a legal query name of at most 255 wire
octets), and for UDP with EDNS it never exceeds the budget provided the
budget is at least the size of the truncated reply (header + question +
OPT); and whenever the assembled response would exceed the budget, the
emitted reply has TC = 1 and empty answer/authority/additional sections
with the OPT record preserved.  (The truncation path re-encodes with no
size limit, so a budget smaller than the minimal reply is exceeded — see
the counterexample.) -/
theorem c4_size_budget (prefs : SrvPrefs) (store : Store) (fuel : Nat) (q : QueryMsg) :
    ((q.tcp = true ∨ q.edns = -1 ∨ prefs.ednsUdpMax = 0) → nameWire q.qname ≤ 255 →
       (handle_query prefs store fuel q).2 ≤ max_size prefs q) ∧
    (12 + nameWire q.qname + 4 + optWire (prepare_response prefs store fuel q) ≤
        max_size prefs q →
       (handle_query prefs store fuel q).2 ≤ max_size prefs q) ∧
    (max_size prefs q < encodedSize q (prepare_response prefs store fuel q) →
       (handle_query prefs store fuel q).1.flagsTC = true ∧
       (handle_query prefs store fuel q).1.answer = [] ∧
       (handle_query prefs store fuel q).1.authority = [] ∧
       (handle_query prefs store fuel q).1.additional = [] ∧
       (handle_query prefs store fuel q).1.ednsVersion =
         (prepare_response prefs store fuel q).ednsVersion) := by
  set s := prepare_response prefs store fuel q with hsdef
  have hbudget : 12 + nameWire q.qname + 4 + optWire s ≤ max_size prefs q →
      (handle_query prefs store fuel q).2 ≤ max_size prefs q := by
    intro hb
    unfold handle_query to_wire
    by_cases hle : encodedSize q s ≤ max_size prefs q
    · simpa [← hsdef, hle] using hle
    · rw [← hsdef]
      simp only [hle, if_false]
      rw [encodedSize_truncate]
      exact hb
  refine ⟨?_, hbudget, ?_⟩
  · intro hcase hname
    apply hbudget
    rcases hcase with htcp | hrest
    · have : max_size prefs q = 65533 := by simp [max_size, htcp]
      rw [this]
      have := optWire_le s
      omega
    · have hnone : s.ednsVersion = none := by
        rw [hsdef]; exact prepare_response_edns_none prefs store fuel q hrest
      have hopt : optWire s = 0 := by rw [optWire, hnone]
      by_cases htcp : q.tcp = true
      · have : max_size prefs q = 65533 := by simp [max_size, htcp]
        rw [this]; omega
      · have h512 : max_size prefs q = 512 := by
          unfold max_size
          have : (prefs.ednsUdpMax = 0 || q.edns == -1) = true := by
            rcases hrest with h | h
            · simp [h]
            · simp [h]
          simp [htcp, this]
        rw [h512]; omega
  · intro hover
    unfold handle_query to_wire
    rw [← hsdef]
    have hle : ¬ (encodedSize q s ≤ max_size prefs q) := by omega
    simp [hle, truncateResp]

/-- A TCP query for a record whose rdata is larger than the TCP budget. -/
def qC4big : QueryMsg := ⟨["big","example"], 16, 1, -1, 0, false, true⟩

/-- Concrete instances of `c4_size_budget`: the oversized TCP response is
truncated to fit the budget (all three hypotheses discharged at the same
input). -/
theorem c4_size_budget_witness :
    (handle_query demoPrefs demoStore 10 qC4big).2 ≤ max_size demoPrefs qC4big ∧
    (handle_query demoPrefs demoStore 10 qC4big).2 ≤ max_size demoPrefs qC4big ∧
    ((handle_query demoPrefs demoStore 10 qC4big).1.flagsTC = true ∧
     (handle_query demoPrefs demoStore 10 qC4big).1.answer = [] ∧
     (handle_query demoPrefs demoStore 10 qC4big).1.authority = [] ∧
     (handle_query demoPrefs demoStore 10 qC4big).1.additional = [] ∧
     (handle_query demoPrefs demoStore 10 qC4big).1.ednsVersion =
       (prepare_response demoPrefs demoStore 10 qC4big).ednsVersion) :=
  ⟨(c4_size_budget demoPrefs demoStore 10 qC4big).1 (Or.inl (by decide)) (by decide),
   (c4_size_budget demoPrefs demoStore 10 qC4big).2.1 (by decide),
   (c4_size_budget demoPrefs demoStore 10 qC4big).2.2 (by decide)⟩

/-- A UDP query whose OPT advertises a 20-octet payload. -/
def qC4small : QueryMsg := ⟨["a","example"], 1, 1, 0, 20, false, false⟩

/-- C4 counterexample: with EDNS the budget is min(advertised, max_send);
a query advertising 20 octets is answered with a truncated reply of 38
octets — the emitted wire exceeds the transport budget. -/
theorem c4_counterexample :
    max_size demoPrefs qC4small < (handle_query demoPrefs demoStore 10 qC4small).2 ∧
    (handle_query demoPrefs demoStore 10 qC4small).1.flagsTC = true := by
  decide

/-! ### C3 (amended): when NOTIMP survives resolution -/

theorem suffix_take_append {q origin : DName} (h : origin <:+ q) :
    q.take (q.length - origin.length) ++ origin = q := by
  rcases h with ⟨t, ht⟩
  subst ht
  have hlen : (t ++ origin).length - origin.length = t.length := by
    rw [List.length_append]; omega
  rw [hlen, List.take_left]

theorem process_name_cases (recurse : DName → Nat → RState → RState)
    (z : Zone) (qn cur : DName) (t : Nat) (s : RState) :
    (process_name recurse z qn cur t s = (false, s) ∧
      (getNode z cur).isSome = true ∧ get_rdataset z cur 39 = none ∧ cur ≠ qn)
    ∨ (process_name recurse z qn cur t s).1 = true := by
  cases h1 : getNode z cur with
  | none =>
    right
    cases h2 : (getNode z (wildcardOf cur)).isSome <;> simp [process_name, h1, h2]
  | some nd =>
    cases h3 : get_rdataset z cur 39 with
    | some dn => right; simp [process_name, h1, h3]
    | none =>
      cases h4 : (if cur ≠ z.origin then get_rdataset z cur 2 else none) with
      | some ns => right; simp [process_name, h1, h3, h4]
      | none =>
        by_cases h5 : cur ≠ qn
        · left
          refine ⟨?_, by simp, rfl, h5⟩
          simp only [process_name, h1, h3, h4, if_pos h5]
        · right; simp [process_name, h1, h3, h4, h5]

theorem process_name_mid_frame (recurse : DName → Nat → RState → RState)
    (z : Zone) (qn cur : DName) (t : Nat) (s : RState)
    (hn : (getNode z cur).isSome = true)
    (hd : get_rdataset z cur 39 = none) (hne : cur ≠ qn) :
    ((process_name recurse z qn cur t s).2).answer = s.answer ∧
    ((process_name recurse z qn cur t s).2).rcode = s.rcode := by
  rcases Option.isSome_iff_exists.mp hn with ⟨nd, h1⟩
  cases h4 : (if cur ≠ z.origin then get_rdataset z cur 2 else none) with
  | some ns =>
    have hf := do_referral_frame z cur ns s
    simp only [process_name, h1, hd, h4]
    exact ⟨hf.1, hf.2.1⟩
  | none =>
    simp [process_name, h1, hd, h4, if_pos hne]

theorem process_name_at_q_frame (recurse : DName → Nat → RState → RState)
    (z : Zone) (qn : DName) (t : Nat) (s : RState)
    (hn : (getNode z qn).isSome = true)
    (hd : get_rdataset z qn 39 = none)
    (hc5 : get_rdataset z qn 5 = none)
    (hct : get_rdataset z qn t = none) :
    ((process_name recurse z qn qn t s).2).answer = s.answer ∧
    ((process_name recurse z qn qn t s).2).rcode = s.rcode := by
  rcases Option.isSome_iff_exists.mp hn with ⟨nd, h1⟩
  have hnn : ¬(qn ≠ qn) := by simp
  cases h4 : (if qn ≠ z.origin then get_rdataset z qn 2 else none) with
  | some ns =>
    have hf := do_referral_frame z qn ns s
    simp only [process_name, h1, hd, h4]
    exact ⟨hf.1, hf.2.1⟩
  | none =>
    simp only [process_name, h1, hd, h4, if_neg hnn, find_rrtype, hc5, hct]
    have hf := add_soa_frame z s
    exact ⟨hf.1, hf.2.1⟩

theorem walk_no_alias_frame (recurse : DName → Nat → RState → RState)
    (z : Zone) (q : DName) (t : Nat)
    (hnodes : ∀ m ∈ q.tails, z.origin <:+ m → (getNode z m).isSome = true)
    (hnodn : ∀ m ∈ q.tails, z.origin <:+ m → get_rdataset z m 39 = none)
    (hc5 : get_rdataset z q 5 = none)
    (hct : get_rdataset z q t = none) :
    ∀ (rl : List Label) (cur : DName) (s : RState),
      z.origin <:+ cur → cur <:+ q → q = rl.reverse ++ cur →
      (walk_loop recurse z q t rl cur s).answer = s.answer ∧
      (walk_loop recurse z q t rl cur s).rcode = s.rcode := by
  intro rl
  induction rl with
  | nil =>
    intro cur s ho hc hq
    have hceq : cur = q := by simpa using hq.symm
    subst hceq
    show ((process_name recurse z cur cur t s).2).answer = s.answer ∧ _
    exact process_name_at_q_frame recurse z cur t s
      (hnodes cur (List.mem_tails cur cur |>.mpr List.suffix_rfl) ho)
      (hnodn cur (List.mem_tails cur cur |>.mpr List.suffix_rfl) ho) hc5 hct
  | cons l rest ih =>
    intro cur s ho hc hq
    have hlen : cur.length < q.length := by
      rw [hq, List.length_append, List.length_reverse, List.length_cons]
      omega
    have hne : cur ≠ q := fun he => by rw [he] at hlen; omega
    have hq' : q = rest.reverse ++ (l :: cur) := by
      rw [hq, List.reverse_cons, List.append_assoc, List.singleton_append]
    unfold walk_loop
    cases hpn : process_name recurse z q cur t s with
    | mk fin s' =>
      cases fin with
      | true =>
        have hm := process_name_mid_frame recurse z q cur t s
          (hnodes cur (List.mem_tails cur q |>.mpr hc) ho)
          (hnodn cur (List.mem_tails cur q |>.mpr hc) ho) hne
        rw [hpn] at hm
        exact hm
      | false =>
        rcases process_name_cases recurse z q cur t s with ⟨heq, -, -, -⟩ | htrue
        · rw [hpn] at heq
          have hs' : s' = s := by
            have := congrArg Prod.snd heq
            simpa using this
          rw [hs']
          exact ih (l :: cur) s (ho.trans (List.suffix_cons l cur))
            (by rw [hq']; exact List.suffix_append _ _) hq'
        · rw [hpn] at htrue
          simp at htrue

theorem find_answer_no_alias_frame (store : Store) (fuel : Nat) (q : DName)
    (t : Nat) (s : RState) (z : Zone)
    (hz : find_zone store q = some z) (horig : z.origin <:+ q)
    (hnodes : ∀ m ∈ q.tails, z.origin <:+ m → (getNode z m).isSome = true)
    (hnodn : ∀ m ∈ q.tails, z.origin <:+ m → get_rdataset z m 39 = none)
    (hc5 : get_rdataset z q 5 = none)
    (hct : get_rdataset z q t = none) :
    (find_answer store fuel q t s).answer = s.answer ∧
    (find_answer store fuel q t s).rcode = s.rcode := by
  cases fuel with
  | zero => exact ⟨rfl, rfl⟩
  | succ f =>
    unfold find_answer
    rw [hz]
    unfold find_answer_in_zone
    apply walk_no_alias_frame (find_answer store f) z q t hnodes hnodn hc5 hct
      _ z.origin s List.suffix_rfl horig
    rw [List.reverse_reverse]
    exact (suffix_take_append horig).symm

/-- C3 (amended): for a meta-type IN query, RCODE NOTIMP is set before
resolution; the final response indeed has RCODE NOTIMP and an empty answer
section provided the query name lies in a loaded zone, every name on the
walk from the apex exists and carries no DNAME, and the query name itself
carries neither a CNAME nor an RRset of the meta-type.  (In general
resolution continues after NOTIMP and may overwrite the RCODE — REFUSED
outside the loaded zones, NXDOMAIN for absent names — or append alias
records; see the counterexample.) -/
theorem c3_notimp_conditional (prefs : SrvPrefs) (store : Store) (fuel : Nat)
    (q : QueryMsg) (z : Zone)
    (hcl : q.qclass = 1) (hmeta : query_meta_type q.qtype = true)
    (hz : find_zone store q.qname = some z) (horig : z.origin <:+ q.qname)
    (hnodes : ∀ m ∈ q.qname.tails, z.origin <:+ m → (getNode z m).isSome = true)
    (hnodn : ∀ m ∈ q.qname.tails, z.origin <:+ m → get_rdataset z m 39 = none)
    (hc5 : get_rdataset z q.qname 5 = none)
    (hct : get_rdataset z q.qname q.qtype = none) :
    (prepare_response prefs store fuel q).rcode = 4 ∧
    (prepare_response prefs store fuel q).answer = [] := by
  have hrest : ∀ s : RState, s.answer = [] →
      (prepare_rest store fuel q s).rcode = 4 ∧ (prepare_rest store fuel q s).answer = [] := by
    intro s hsa
    unfold prepare_rest
    rw [if_neg (by simp [hcl]), if_pos hmeta]
    have hfa := find_answer_no_alias_frame store fuel q.qname q.qtype (setRcode s 4) z
      hz horig hnodes hnodn hc5 hct
    constructor
    · rw [(aa_if_fields _ _).2.1, hfa.2]
      rfl
    · rw [(aa_if_fields _ _).1, hfa.1, setRcode, hsa]
  unfold prepare_response
  by_cases h1 : prefs.ednsUdpMax = 0
  · rw [if_pos h1]
    exact hrest _ rfl
  · by_cases h2 : q.edns ≠ -1
    · rw [if_neg h1, if_pos h2]
      exact hrest _ rfl
    · have h3 : q.edns = -1 := not_not.mp h2
      have h4 : ¬ (q.edns > 0) := by rw [h3]; decide
      rw [if_neg h1, if_neg h2, if_neg h4]
      exact hrest _ rfl

/-- Concrete instance of `c3_notimp_conditional`: a meta-type query for a
name that exists in the zone with no alias on its walk keeps NOTIMP and an
empty answer. -/
theorem c3_notimp_conditional_witness :
    (prepare_response demoPrefs demoStore 10 (mkQ ["a","example"] 200)).rcode = 4 ∧
    (prepare_response demoPrefs demoStore 10 (mkQ ["a","example"] 200)).answer = [] :=
  c3_notimp_conditional demoPrefs demoStore 10 (mkQ ["a","example"] 200) demoZone
    (by decide) (by decide) (by decide) (by decide) (by decide) (by decide)
    (by decide) (by decide)

/-! ### C9: empty-non-terminal closure -/

theorem lookupN_append_left {β : Type} (l1 l2 : List (DName × β)) (n : DName)
    (h : (lookupN l1 n).isSome = true) : lookupN (l1 ++ l2) n = lookupN l1 n := by
  induction l1 with
  | nil => simp [lookupN] at h
  | cons p t ih =>
    by_cases hp : p.1 == n
    · simp [lookupN, List.find?, hp]
    · simp only [lookupN, List.find?, List.cons_append, hp] at *
      exact ih h

theorem lookupN_append_right {β : Type} (l1 l2 : List (DName × β)) (n : DName)
    (h : lookupN l1 n = none) : lookupN (l1 ++ l2) n = lookupN l2 n := by
  induction l1 with
  | nil => simp
  | cons p t ih =>
    by_cases hp : p.1 == n
    · simp [lookupN, List.find?, hp] at h
    · simp only [lookupN, List.find?, List.cons_append, hp] at *
      exact ih h

theorem lookupN_isSome_mem {β : Type} (l : List (DName × β)) (n : DName)
    (h : (lookupN l n).isSome = true) : ∃ b, (n, b) ∈ l := by
  rcases Option.isSome_iff_exists.mp h with ⟨b, hb⟩
  simp only [lookupN, Option.map_eq_some'] at hb
  rcases hb with ⟨p, hp, hpb⟩
  have hmem := List.mem_of_find?_eq_some hp
  have hkey : p.1 = n := by simpa using List.find?_some hp
  refine ⟨b, ?_⟩
  have hpeq : p = (n, b) := by
    cases p
    simp_all
  rwa [hpeq] at hmem

/-- One step of `add_nodes`'s fold. -/
def add_step (acc : List (DName × Node)) (e : DName) : List (DName × Node) :=
  if (lookupN acc e).isSome then acc else acc ++ [(e, [])]

theorem add_nodes_eq_foldl (z : List (DName × Node)) (ents : List DName) :
    add_nodes z ents = ents.foldl add_step z := rfl

theorem add_step_pres (acc : List (DName × Node)) (e n : DName)
    (h : (lookupN acc n).isSome = true) : (lookupN (add_step acc e) n).isSome = true := by
  unfold add_step
  by_cases he : (lookupN acc e).isSome
  · rw [if_pos he]; exact h
  · rw [if_neg he, lookupN_append_left _ _ _ h]; exact h

theorem add_fold_pres (ents : List DName) (acc : List (DName × Node)) (n : DName)
    (h : (lookupN acc n).isSome = true) :
    (lookupN (ents.foldl add_step acc) n).isSome = true := by
  induction ents generalizing acc with
  | nil => exact h
  | cons e rest ih => exact ih (add_step acc e) (add_step_pres acc e n h)

theorem add_fold_creates (ents : List DName) (acc : List (DName × Node)) (e : DName)
    (h : e ∈ ents) : (lookupN (ents.foldl add_step acc) e).isSome = true := by
  induction ents generalizing acc with
  | nil => cases h
  | cons a rest ih =>
    rcases List.mem_cons.mp h with rfl | hmem
    · rw [List.foldl_cons]
      apply add_fold_pres
      unfold add_step
      by_cases ha : (lookupN acc e).isSome
      · rw [if_pos ha]; exact ha
      · rw [if_neg ha]
        have hnone : lookupN acc e = none := by
          cases hv : lookupN acc e with
          | none => rfl
          | some b => rw [hv] at ha; simp at ha
        rw [lookupN_append_right _ _ _ hnone]
        simp [lookupN, List.find?]
    · rw [List.foldl_cons]
      exact ih _ hmem

theorem add_fold_isSome_inv (ents : List DName) (acc : List (DName × Node)) (n : DName)
    (h : (lookupN (ents.foldl add_step acc) n).isSome = true) :
    (lookupN acc n).isSome = true ∨ n ∈ ents := by
  induction ents generalizing acc with
  | nil => exact Or.inl h
  | cons e rest ih =>
    rcases ih (add_step acc e) h with hs | hm
    · unfold add_step at hs
      by_cases he : (lookupN acc e).isSome
      · rw [if_pos he] at hs; exact Or.inl hs
      · rw [if_neg he] at hs
        cases hv : lookupN acc n with
        | some b => exact Or.inl rfl
        | none =>
          rw [lookupN_append_right _ _ _ hv] at hs
          have : e = n := by
            by_cases hq : e == n
            · exact eq_of_beq hq
            · simp [lookupN, List.find?, hq] at hs
          exact Or.inr (by rw [← this]; exact List.mem_cons_self e rest)
    · exact Or.inr (List.mem_cons_of_mem e hm)

theorem ent_chain_head (z : List (DName × Node)) (origin : DName) (rest : DName) :
    parentN rest = origin ∨ (lookupN z (parentN rest)).isSome = true ∨
      parentN rest ∈ ent_chain z origin rest ∨ parentN rest = rest := by
  cases rest with
  | nil => right; right; right; rfl
  | cons r1 r2 =>
    show r2 = origin ∨ (lookupN z r2).isSome = true ∨ r2 ∈ ent_chain z origin (r1 :: r2) ∨ r2 = r1 :: r2
    by_cases h1 : r2 = origin
    · exact Or.inl h1
    · by_cases h2 : (lookupN z r2).isSome
      · exact Or.inr (Or.inl h2)
      · right; right; left
        simp [ent_chain, h1, h2]

theorem ent_chain_parent (z : List (DName × Node)) (origin : DName) :
    ∀ (m : DName) (p : DName), p ∈ ent_chain z origin m →
      parentN p = origin ∨ (lookupN z (parentN p)).isSome = true ∨
        parentN p ∈ ent_chain z origin m := by
  intro m
  induction m with
  | nil => intro p hp; simp [ent_chain] at hp
  | cons l rest ih =>
    intro p hp
    by_cases horr : rest = origin
    · simp [ent_chain, horr] at hp
    · have hEq : ent_chain z origin (l :: rest) =
          (if (lookupN z rest).isSome then [] else [rest]) ++ ent_chain z origin rest := by
        simp [ent_chain, horr]
      rw [hEq] at hp
      rcases List.mem_append.mp hp with hg | hc
      · by_cases hlk : (lookupN z rest).isSome
        · rw [if_pos hlk] at hg; cases hg
        · rw [if_neg hlk] at hg
          have hpr : p = rest := by simpa using hg
          rcases ent_chain_head z origin rest with h | h | h | h
          · exact Or.inl (by rw [hpr]; exact h)
          · exact Or.inr (Or.inl (by rw [hpr]; exact h))
          · refine Or.inr (Or.inr ?_)
            rw [hpr, hEq]
            exact List.mem_append.mpr (Or.inr h)
          · refine Or.inr (Or.inr ?_)
            rw [hpr, h, hEq]
            rw [if_neg hlk]
            exact List.mem_append.mpr (Or.inl (by simp))
      · rcases ih p hc with h | h | h
        · exact Or.inl h
        · exact Or.inr (Or.inl h)
        · refine Or.inr (Or.inr ?_)
          rw [hEq]
          exact List.mem_append.mpr (Or.inr h)

theorem mem_get_ent_nodes (z : List (DName × Node)) (origin : DName) (p : DName) :
    p ∈ get_ent_nodes z origin ↔
      ∃ m, (∃ b, (m, b) ∈ z) ∧ m ≠ origin ∧ p ∈ ent_chain z origin m := by
  unfold get_ent_nodes
  rw [List.mem_dedup, List.mem_flatMap]
  constructor
  · rintro ⟨m, hm, hp⟩
    rw [List.mem_filter] at hm
    rcases hm with ⟨hmm, hne⟩
    rw [List.mem_map] at hmm
    rcases hmm with ⟨pr, hpr, hfst⟩
    refine ⟨m, ⟨pr.2, ?_⟩, by simpa using hne, hp⟩
    have : pr = (m, pr.2) := by
      cases pr; simp_all
    rwa [this] at hpr
  · rintro ⟨m, ⟨b, hb⟩, hne, hp⟩
    exact ⟨m, List.mem_filter.mpr ⟨List.mem_map.mpr ⟨(m, b), hb, rfl⟩, by simpa using hne⟩, hp⟩

/-- C9: after zone construction (parse then ENT materialization), every name
present in the zone other than the origin has a present parent; every strict
ancestor up to and excluding the origin exists at least as an ENT node.  The
hypotheses state what `dns.zone.from_file` guarantees for the parsed data:
the origin is present (it carries the SOA) and every owner name is a
subdomain of the origin. -/
theorem c9_ent_invariant (origin : DName) (parsed : List (DName × Node))
    (horig : (lookupN parsed origin).isSome = true)
    (hsub : ∀ pr ∈ parsed, origin <:+ pr.1) :
    ∀ n, (lookupN (zone_init origin parsed).nodes n).isSome = true → n ≠ origin →
      (lookupN (zone_init origin parsed).nodes (parentN n)).isSome = true := by
  intro n hn hne
  have hz : (zone_init origin parsed).nodes =
      (get_ent_nodes parsed origin).foldl add_step parsed := rfl
  rw [hz] at hn ⊢
  rcases add_fold_isSome_inv _ _ _ hn with hsome | hent
  · rcases lookupN_isSome_mem parsed n hsome with ⟨b, hb⟩
    have hsuf : origin <:+ n := hsub (n, b) hb
    cases n with
    | nil =>
      rw [List.suffix_nil] at hsuf
      exact absurd hsuf.symm hne
    | cons l restn =>
      show (lookupN ((get_ent_nodes parsed origin).foldl add_step parsed) restn).isSome = true
      by_cases hro : restn = origin
      · rw [hro]; exact add_fold_pres _ _ _ horig
      · by_cases hlk : (lookupN parsed restn).isSome
        · exact add_fold_pres _ _ _ hlk
        · apply add_fold_creates
          rw [mem_get_ent_nodes]
          refine ⟨l :: restn, ⟨b, hb⟩, hne, ?_⟩
          simp [ent_chain, hro, hlk]
  · rcases (mem_get_ent_nodes parsed origin n).mp hent with ⟨m, ⟨b, hb⟩, hmo, hpc⟩
    rcases ent_chain_parent parsed origin m n hpc with h | h | h
    · rw [h]; exact add_fold_pres _ _ _ horig
    · exact add_fold_pres _ _ _ h
    · apply add_fold_creates
      rw [mem_get_ent_nodes]
      exact ⟨m, ⟨b, hb⟩, hmo, h⟩

/-- Concrete instance of `c9_ent_invariant`: the parent `w.example.` of the
wildcard name exists (as a materialized ENT) in the demonstration zone. -/
theorem c9_ent_invariant_witness :
    (lookupN (zone_init ["example"] demoParsed).nodes ["w","example"]).isSome = true :=
  c9_ent_invariant ["example"] demoParsed (by decide) (by decide)
    ["*","w","example"] (by decide) (by decide)

/-! ### C6: the canonical name order and `find_zone` -/

theorem labelsLt_asymm : ∀ (x y : List Label),
    labelsLt x y = true → labelsLt y x = false := by
  intro x
  induction x with
  | nil =>
    intro y h
    cases y with
    | nil => simp [labelsLt] at h
    | cons b bs => rfl
  | cons a as ih =>
    intro y h
    cases y with
    | nil => simp [labelsLt] at h
    | cons b bs =>
      unfold labelsLt at h ⊢
      by_cases hab : a < b
      · rw [if_neg (lt_asymm hab), if_pos hab]
      · rw [if_neg hab] at h
        by_cases hba : b < a
        · rw [if_pos hba] at h; cases h
        · rw [if_neg hba] at h
          rw [if_neg hba, if_neg hab]
          exact ih bs h

theorem labelsLt_trans : ∀ (x y z : List Label),
    labelsLt x y = true → labelsLt y z = true → labelsLt x z = true := by
  intro x
  induction x with
  | nil =>
    intro y z h1 h2
    cases y with
    | nil => simp [labelsLt] at h1
    | cons b bs =>
      cases z with
      | nil => simp [labelsLt] at h2
      | cons c cs => rfl
  | cons a as ih =>
    intro y z h1 h2
    cases y with
    | nil => simp [labelsLt] at h1
    | cons b bs =>
      cases z with
      | nil => simp [labelsLt] at h2
      | cons c cs =>
        unfold labelsLt at h1 h2 ⊢
        by_cases hab : a < b
        · by_cases hbc : b < c
          · rw [if_pos (lt_trans hab hbc)]
          · by_cases hcb : c < b
            · rw [if_neg hbc, if_pos hcb] at h2; cases h2
            · have hbceq : b = c := le_antisymm (le_of_not_lt hcb) (le_of_not_lt hbc)
              rw [if_pos (by rw [← hbceq]; exact hab)]
        · by_cases hba : b < a
          · rw [if_neg hab, if_pos hba] at h1; cases h1
          · have habeq : a = b := le_antisymm (le_of_not_lt hba) (le_of_not_lt hab)
            rw [if_neg hab, if_neg hba] at h1
            by_cases hbc : b < c
            · rw [if_pos (by rw [habeq]; exact hbc)]
            · by_cases hcb : c < b
              · rw [if_neg hbc, if_pos hcb] at h2; cases h2
              · have hbceq : b = c := le_antisymm (le_of_not_lt hcb) (le_of_not_lt hbc)
                rw [if_neg hbc, if_neg hcb] at h2
                have hac : ¬ a < c := by rw [habeq, hbceq]; exact lt_irrefl c
                have hca : ¬ c < a := by rw [habeq, hbceq]; exact lt_irrefl c
                rw [if_neg hac, if_neg hca]
                exact ih bs cs h1 h2

theorem labelsLt_total : ∀ (x y : List Label),
    x ≠ y → labelsLt x y = true ∨ labelsLt y x = true := by
  intro x
  induction x with
  | nil =>
    intro y h
    cases y with
    | nil => exact absurd rfl h
    | cons b bs => exact Or.inl rfl
  | cons a as ih =>
    intro y h
    cases y with
    | nil => exact Or.inr rfl
    | cons b bs =>
      by_cases hab : a < b
      · left; unfold labelsLt; rw [if_pos hab]
      · by_cases hba : b < a
        · right; unfold labelsLt; rw [if_pos hba]
        · have habeq : a = b := le_antisymm (le_of_not_lt hba) (le_of_not_lt hab)
          have htl : as ≠ bs := by
            intro he; apply h; rw [habeq, he]
          rcases ih bs htl with ht | ht
          · left; unfold labelsLt; rw [if_neg hab, if_neg hba]; exact ht
          · right; unfold labelsLt; rw [if_neg hba, if_neg hab]; exact ht

theorem labelsLt_of_proper_prefix : ∀ (x y : List Label),
    x <+: y → x ≠ y → labelsLt x y = true := by
  intro x
  induction x with
  | nil =>
    intro y hp hne
    cases y with
    | nil => exact absurd rfl hne
    | cons b bs => rfl
  | cons a as ih =>
    intro y hp hne
    cases y with
    | nil =>
      rw [List.prefix_nil] at hp
      cases hp
    | cons b bs =>
      rcases List.cons_prefix_cons.mp hp with ⟨hab, htl⟩
      subst hab
      have hne' : as ≠ bs := by
        intro he; apply hne; rw [he]
      unfold labelsLt
      rw [if_neg (lt_irrefl a), if_neg (lt_irrefl a)]
      exact ih bs htl hne'

theorem nameLt_asymm (x y : DName) (h : nameLt x y = true) : nameLt y x = false :=
  labelsLt_asymm _ _ h

theorem nameLt_trans (x y z : DName) (h1 : nameLt x y = true) (h2 : nameLt y z = true) :
    nameLt x z = true :=
  labelsLt_trans _ _ _ h1 h2

theorem nameLt_of_proper_suffix (x y : DName) (hs : x <:+ y) (hne : x ≠ y) :
    nameLt x y = true :=
  labelsLt_of_proper_prefix _ _ (List.reverse_prefix.mpr hs)
    (fun he => hne (List.reverse_injective he))

theorem insertName_perm (x : DName) : ∀ (l : List DName),
    (insertName x l).Perm (x :: l) := by
  intro l
  induction l with
  | nil => exact List.Perm.refl _
  | cons y ys ih =>
    unfold insertName
    by_cases h : nameLt x y
    · rw [if_pos h]
    · rw [if_neg h]
      exact (ih.cons y).trans (List.Perm.swap x y ys)

theorem sortNames_perm : ∀ (l : List DName), (sortNames l).Perm l := by
  intro l
  induction l with
  | nil => exact List.Perm.refl _
  | cons x xs ih => exact (insertName_perm x (sortNames xs)).trans (ih.cons x)

theorem insertName_pairwise (x : DName) : ∀ (l : List DName),
    List.Pairwise (fun a b => nameLt b a = false) l →
    List.Pairwise (fun a b => nameLt b a = false) (insertName x l) := by
  intro l
  induction l with
  | nil =>
    intro _
    exact List.pairwise_singleton _ x
  | cons y ys ih =>
    intro h
    unfold insertName
    by_cases hxy : nameLt x y
    · rw [if_pos hxy]
      refine List.pairwise_cons.mpr ⟨?_, h⟩
      intro z hz
      rcases List.mem_cons.mp hz with rfl | hzys
      · exact nameLt_asymm x z hxy
      · have hyz : nameLt z y = false := List.rel_of_pairwise_cons h hzys
        cases hzx : nameLt z x with
        | false => rfl
        | true =>
          have : nameLt z y = true := nameLt_trans z x y hzx hxy
          rw [this] at hyz; cases hyz
    · rw [if_neg hxy]
      have hxyf : nameLt x y = false := by
        cases hv : nameLt x y with
        | false => rfl
        | true => exact absurd hv hxy
      refine List.pairwise_cons.mpr ⟨?_, ih (List.Pairwise.of_cons h)⟩
      intro z hz
      have hz' := (insertName_perm x ys).mem_iff.mp hz
      rcases List.mem_cons.mp hz' with rfl | hzys
      · exact hxyf
      · exact List.rel_of_pairwise_cons h hzys

theorem sortNames_pairwise : ∀ (l : List DName),
    List.Pairwise (fun a b => nameLt b a = false) (sortNames l) := by
  intro l
  induction l with
  | nil => exact List.Pairwise.nil
  | cons x xs ih => exact insertName_pairwise x (sortNames xs) ih

theorem sorted_desc (l : List DName) :
    List.Pairwise (fun a b => nameLt a b = false) (sortNames l).reverse := by
  rw [List.pairwise_reverse]
  exact sortNames_pairwise l

theorem is_subdomain_iff : ∀ (q z : DName), is_subdomain q z = true ↔ z <:+ q := by
  intro q
  induction q with
  | nil =>
    intro z
    rw [show is_subdomain [] z = (([] : DName) == z || false) from rfl]
    rw [Bool.or_false, beq_iff_eq, List.suffix_nil]
    exact eq_comm
  | cons a t ih =>
    intro z
    rw [show is_subdomain (a :: t) z = ((a :: t : DName) == z || is_subdomain t z) from rfl]
    rw [Bool.or_eq_true, beq_iff_eq, ih z, List.suffix_cons_iff]
    constructor
    · rintro (h | h)
      exacts [Or.inl h.symm, Or.inr h]
    · rintro (h | h)
      exacts [Or.inl h.symm, Or.inr h]

theorem find_longest (q : DName) : ∀ (l : List DName),
    List.Pairwise (fun a b => nameLt a b = false) l →
    ((∀ z : DName, l.find? (fun zn => is_subdomain q zn) = some z ↔
        (z ∈ l ∧ z <:+ q ∧ ∀ y ∈ l, y <:+ q → y.length ≤ z.length)) ∧
      (l.find? (fun zn => is_subdomain q zn) = none ↔ ∀ y ∈ l, ¬ y <:+ q)) := by
  intro l
  induction l with
  | nil =>
    intro _
    constructor
    · intro z; simp
    · simp
  | cons h t ih =>
    intro hp
    have iht := ih (List.Pairwise.of_cons hp)
    by_cases hh : is_subdomain q h = true
    · have hhs : h <:+ q := (is_subdomain_iff q h).mp hh
      have hmax : ∀ y ∈ h :: t, y <:+ q → y.length ≤ h.length := by
        intro y hy hys
        rcases List.mem_cons.mp hy with rfl | hyt
        · exact le_refl _
        · by_contra hlt
          push_neg at hlt
          have hsub : h <:+ y := by
            rcases List.suffix_or_suffix_of_suffix hhs hys with hxy | hyx
            · exact hxy
            · have := hyx.length_le
              omega
          have hne : h ≠ y := by
            intro he; rw [he] at hlt; omega
          have ht1 : nameLt h y = true := nameLt_of_proper_suffix h y hsub hne
          have hfalse : nameLt h y = false := List.rel_of_pairwise_cons hp hyt
          rw [ht1] at hfalse; cases hfalse
      rw [List.find?_cons_of_pos t hh]
      constructor
      · intro z
        constructor
        · intro hz
          have hze : h = z := Option.some.inj hz
          rw [← hze]
          exact ⟨List.mem_cons_self h t, hhs, hmax⟩
        · rintro ⟨hzmem, hzs, hzmax⟩
          have h1 : z.length ≤ h.length := hmax z hzmem hzs
          have h2 : h.length ≤ z.length := hzmax h (List.mem_cons_self h t) hhs
          have heq : z = h := by
            rcases List.suffix_or_suffix_of_suffix hzs hhs with hzh | hhz
            · exact hzh.eq_of_length (by omega)
            · exact (hhz.eq_of_length (by omega)).symm
          rw [heq]
      · constructor
        · intro hno; simp at hno
        · intro hall
          exact absurd hhs (hall h (List.mem_cons_self h t))
    · have hhs : ¬ h <:+ q := fun hs => hh ((is_subdomain_iff q h).mpr hs)
      rw [List.find?_cons_of_neg t hh]
      constructor
      · intro z
        rw [iht.1 z]
        constructor
        · rintro ⟨hzm, hzs, hzmax⟩
          refine ⟨List.mem_cons_of_mem h hzm, hzs, ?_⟩
          intro y hy hys
          rcases List.mem_cons.mp hy with rfl | hyt
          · exact absurd hys hhs
          · exact hzmax y hyt hys
        · rintro ⟨hzm, hzs, hzmax⟩
          rcases List.mem_cons.mp hzm with rfl | hzt
          · exact absurd hzs hhs
          · exact ⟨hzt, hzs, fun y hy hys => hzmax y (List.mem_cons_of_mem h hy) hys⟩
      · rw [iht.2]
        constructor
        · intro hall y hy hys
          rcases List.mem_cons.mp hy with rfl | hyt
          · exact hhs hys
          · exact hall y hyt hys
        · intro hall y hy hys
          exact hall y (List.mem_cons_of_mem h hy) hys

theorem lookupN_eq_some_mem {β : Type} (l : List (DName × β)) (n : DName) (b : β)
    (h : lookupN l n = some b) : (n, b) ∈ l := by
  simp only [lookupN, Option.map_eq_some'] at h
  rcases h with ⟨p, hp, hpb⟩
  have hkey : p.1 = n := by simpa using List.find?_some hp
  have hm := List.mem_of_find?_eq_some hp
  have hpe : p = (n, b) := by
    cases p; simp_all
  rwa [hpe] at hm

theorem lookupN_of_mem_nodup {β : Type} (l : List (DName × β)) (n : DName) (b : β)
    (hnd : (l.map (fun p => p.1)).Nodup) (h : (n, b) ∈ l) : lookupN l n = some b := by
  induction l with
  | nil => cases h
  | cons p t ih =>
    by_cases hkey : p.1 == n
    · have hk : p.1 = n := eq_of_beq hkey
      rcases List.mem_cons.mp h with he | ht
      · rw [show lookupN (p :: t) n = some p.2 from by simp [lookupN, List.find?, hkey]]
        rw [← he]
      · exfalso
        have hm : n ∈ t.map (fun p => p.1) := List.mem_map.mpr ⟨(n, b), ht, rfl⟩
        have hnd1 := List.nodup_cons.mp hnd
        rw [← hk] at hm
        exact hnd1.1 hm
    · have hne : (n, b) ≠ p := by
        intro he; rw [← he] at hkey; simp at hkey
      rcases List.mem_cons.mp h with he | ht
      · exact absurd he hne
      · rw [show lookupN (p :: t) n = lookupN t n from by simp [lookupN, List.find?, hkey]]
        exact ih (List.nodup_cons.mp hnd).2 ht

theorem mem_keys_lookupN_isSome {β : Type} (l : List (DName × β)) (n : DName)
    (h : n ∈ l.map (fun p => p.1)) : (lookupN l n).isSome = true := by
  induction l with
  | nil => simp at h
  | cons p t ih =>
    rw [List.map_cons, List.mem_cons] at h
    by_cases hkey : p.1 == n
    · simp [lookupN, List.find?, hkey]
    · rw [show lookupN (p :: t) n = lookupN t n from by simp [lookupN, List.find?, hkey]]
      apply ih
      rcases h with he | ht
      · exfalso; rw [he] at hkey; simp at hkey
      · exact ht

theorem find_zone_some_iff (store : Store) (q : DName)
    (hnd : (store.map (fun p => p.1)).Nodup)
    (hkeys : ∀ p ∈ store, (p.2).origin = p.1) (z : Zone) :
    (find_zone store q = some z ↔
      ((z.origin, z) ∈ store ∧ z.origin <:+ q ∧
        ∀ p ∈ store, p.1 <:+ q → p.1.length ≤ z.origin.length)) := by
  have hchar := find_longest q (sortNames (store.map (fun p => p.1))).reverse (sorted_desc _)
  constructor
  · intro h
    unfold find_zone at h
    cases hf : (sortNames (store.map (fun p => p.1))).reverse.find?
        (fun zn => is_subdomain q zn) with
    | none => rw [hf] at h; simp at h
    | some zn =>
      rw [hf] at h
      have hlk : lookupN store zn = some z := h
      have hmem := lookupN_eq_some_mem store zn z hlk
      have hzor : z.origin = zn := hkeys (zn, z) hmem
      rcases (hchar.1 zn).mp hf with ⟨hznm, hzns, hznmax⟩
      refine ⟨by rw [hzor]; exact hmem, by rw [hzor]; exact hzns, ?_⟩
      intro p hp hps
      rw [hzor]
      apply hznmax
      · rw [List.mem_reverse, (sortNames_perm _).mem_iff]
        exact List.mem_map.mpr ⟨p, hp, rfl⟩
      · exact hps
  · rintro ⟨hmem, hsuf, hmax⟩
    unfold find_zone
    have hf : (sortNames (store.map (fun p => p.1))).reverse.find?
        (fun zn => is_subdomain q zn) = some z.origin := by
      apply (hchar.1 z.origin).mpr
      refine ⟨?_, hsuf, ?_⟩
      · rw [List.mem_reverse, (sortNames_perm _).mem_iff]
        exact List.mem_map.mpr ⟨(z.origin, z), hmem, rfl⟩
      · intro y hy hys
        rw [List.mem_reverse, (sortNames_perm _).mem_iff] at hy
        rcases List.mem_map.mp hy with ⟨p, hp, hfst⟩
        rw [← hfst]
        exact hmax p hp (by rw [hfst]; exact hys)
    rw [hf]
    exact lookupN_of_mem_nodup store z.origin z hnd hmem

theorem find_zone_none_iff (store : Store) (q : DName) :
    (find_zone store q = none ↔ ∀ p ∈ store, ¬ p.1 <:+ q) := by
  have hchar := find_longest q (sortNames (store.map (fun p => p.1))).reverse (sorted_desc _)
  unfold find_zone
  cases hf : (sortNames (store.map (fun p => p.1))).reverse.find?
      (fun zn => is_subdomain q zn) with
  | none =>
    constructor
    · intro _ p hp hps
      exact (hchar.2.mp hf) p.1
        (by rw [List.mem_reverse, (sortNames_perm _).mem_iff]
            exact List.mem_map.mpr ⟨p, hp, rfl⟩) hps
    · intro _; rfl
  | some zn =>
    rcases (hchar.1 zn).mp hf with ⟨hznm, hzns, -⟩
    have hzk : zn ∈ store.map (fun p => p.1) := by
      rw [List.mem_reverse, (sortNames_perm _).mem_iff] at hznm
      exact hznm
    rcases List.mem_map.mp hzk with ⟨p, hp, hfst⟩
    constructor
    · intro h
      exfalso
      have hlk := mem_keys_lookupN_isSome store zn hzk
      have h' : lookupN store zn = none := h
      rw [h'] at hlk; cases hlk
    · intro hall
      exact absurd (by rw [hfst]; exact hzns) (hall p hp)

/-- C6: over a store with distinct origins (keyed by their zones' origins),
`find_zone` returns exactly the zone whose origin is the longest suffix of
the query name (origin-equal counts), and returns none exactly when no
loaded origin is a suffix of the query name. -/
theorem c6_find_zone (store : Store) (q : DName)
    (hnd : (store.map (fun p => p.1)).Nodup)
    (hkeys : ∀ p ∈ store, (p.2).origin = p.1) :
    (∀ z : Zone, find_zone store q = some z ↔
      ((z.origin, z) ∈ store ∧ z.origin <:+ q ∧
        ∀ p ∈ store, p.1 <:+ q → p.1.length ≤ z.origin.length)) ∧
    (find_zone store q = none ↔ ∀ p ∈ store, ¬ p.1 <:+ q) :=
  ⟨fun z => find_zone_some_iff store q hnd hkeys z, find_zone_none_iff store q⟩

/-- Concrete instances of `c6_find_zone` on a two-zone store with nested
origins: the more specific zone wins for names under it, and a name under
no loaded origin yields none. -/
theorem c6_find_zone_witness :
    find_zone demoStore2 ["a","sub2","example"] = some demoZone2 ∧
    find_zone demoStore2 ["x","other"] = none :=
  ⟨((c6_find_zone demoStore2 ["a","sub2","example"] (by decide) (by decide)).1
      demoZone2).mpr (by decide),
   (c6_find_zone demoStore2 ["x","other"] (by decide) (by decide)).2.mpr (by decide)⟩

/-! ### C8: no duplicate CNAME/DNAME owners in the answer section -/

/-- Owners of the CNAME RRsets in an answer section. -/
def cnameOwners (ans : List RRset) : List DName :=
  (ans.filter (fun rr => rr.rdtype == 5)).map (fun rr => rr.owner)

/-- Owners of the DNAME RRsets in an answer section. -/
def dnameOwners (ans : List RRset) : List DName :=
  (ans.filter (fun rr => rr.rdtype == 39)).map (fun rr => rr.owner)

theorem mem_cnameOwners (ans : List RRset) (o : DName) :
    o ∈ cnameOwners ans ↔ ∃ rr ∈ ans, rr.rdtype = 5 ∧ rr.owner = o := by
  unfold cnameOwners
  rw [List.mem_map]
  constructor
  · rintro ⟨rr, hrr, ho⟩
    rw [List.mem_filter] at hrr
    exact ⟨rr, hrr.1, by simpa using hrr.2, ho⟩
  · rintro ⟨rr, hrr, ht, ho⟩
    exact ⟨rr, List.mem_filter.mpr ⟨hrr, by simpa using ht⟩, ho⟩

theorem mem_dnameOwners (ans : List RRset) (o : DName) :
    o ∈ dnameOwners ans ↔ ∃ rr ∈ ans, rr.rdtype = 39 ∧ rr.owner = o := by
  unfold dnameOwners
  rw [List.mem_map]
  constructor
  · rintro ⟨rr, hrr, ho⟩
    rw [List.mem_filter] at hrr
    exact ⟨rr, hrr.1, by simpa using hrr.2, ho⟩
  · rintro ⟨rr, hrr, ht, ho⟩
    exact ⟨rr, List.mem_filter.mpr ⟨hrr, by simpa using ht⟩, ho⟩

theorem cnameOwners_append (ans : List RRset) (rr : RRset) :
    cnameOwners (ans ++ [rr]) =
      cnameOwners ans ++ (if rr.rdtype == 5 then [rr.owner] else []) := by
  unfold cnameOwners
  rw [List.filter_append, List.map_append]
  cases h : (rr.rdtype == 5) <;> simp [List.filter, h]

theorem dnameOwners_append (ans : List RRset) (rr : RRset) :
    dnameOwners (ans ++ [rr]) =
      dnameOwners ans ++ (if rr.rdtype == 39 then [rr.owner] else []) := by
  unfold dnameOwners
  rw [List.filter_append, List.map_append]
  cases h : (rr.rdtype == 39) <;> simp [List.filter, h]

theorem nodup_snoc {α : Type} [DecidableEq α] (l : List α) (x : α)
    (h : l.Nodup) (hx : x ∉ l) : (l ++ [x]).Nodup := by
  rw [List.nodup_append]
  refine ⟨h, List.nodup_singleton x, ?_⟩
  intro a ha hax
  rw [List.mem_singleton] at hax
  subst hax
  exact hx ha

theorem get_rdataset_isSome_node (z : Zone) (n : DName) (t : Nat)
    (h : (get_rdataset z n t).isSome = true) : (getNode z n).isSome = true := by
  unfold get_rdataset at h
  cases hn : getNode z n with
  | none => rw [hn] at h; simp at h
  | some nd => rfl

/-- Evidence that owner `o` can carry a CNAME in the answer through the
non-wildcard paths: its zone holds a CNAME at `o` itself, or a DNAME at an
ancestor of `o` at or above the zone origin (the synthesized case). -/
def CDirect (store : Store) (o : DName) : Prop :=
  ∃ z, find_zone store o = some z ∧
    ((get_rdataset z o 5).isSome = true ∨
      ∃ D, D <:+ o ∧ z.origin <:+ D ∧ (get_rdataset z D 39).isSome = true)

/-- No DNAME sits on any strict ancestor of `o` between the zone origin
and `o`. -/
def NoDnameAnc (z : Zone) (o : DName) : Prop :=
  ∀ D, D <:+ o → D ≠ o → z.origin <:+ D → get_rdataset z D 39 = none

/-- Evidence that owner `o` was produced by a wildcard match: the node `o`
is absent from its zone, the wildcard carries a CNAME, and no ancestor
carries a DNAME (the walk reached `o`). -/
def CWild (store : Store) (o : DName) : Prop :=
  ∃ z, find_zone store o = some z ∧ getNode z o = none ∧
    (get_rdataset z (wildcardOf o) 5).isSome = true ∧ NoDnameAnc z o

/-- Evidence that owner `o` carries a DNAME in its zone. -/
def DFact (store : Store) (o : DName) : Prop :=
  ∃ z, find_zone store o = some z ∧ (get_rdataset z o 39).isSome = true

theorem cdirect_cwild_incompat (store : Store) (o : DName)
    (hd : CDirect store o) (hw : CWild store o) : False := by
  rcases hd with ⟨z1, hz1, hcase⟩
  rcases hw with ⟨z2, hz2, hnode, -, hanc⟩
  have hz12 : z1 = z2 := by
    rw [hz1] at hz2
    exact Option.some.inj hz2
  subst hz12
  rcases hcase with h5 | ⟨D, hDs, hDo, hD39⟩
  · have := get_rdataset_isSome_node z1 o 5 h5
    rw [hnode] at this; cases this
  · by_cases hDe : D = o
    · subst hDe
      have := get_rdataset_isSome_node z1 D 39 hD39
      rw [hnode] at this; cases this
    · have := hanc D hDs hDe hDo
      rw [this] at hD39; cases hD39

/-- The resolution-state invariant for C8: the visited lists are
duplicate-free, the CNAME/DNAME owners in the answer are duplicate-free,
and every such owner is tied to its visited-list entry together with the
zone facts that justified its append. -/
structure RInv (store : Store) (s : RState) : Prop where
  cvis : s.cname_owner_list.Nodup
  dvis : s.dname_owner_list.Nodup
  cans : (cnameOwners s.answer).Nodup
  dans : (dnameOwners s.answer).Nodup
  cfact : ∀ rr ∈ s.answer, rr.rdtype = 5 →
    (rr.owner ∈ s.cname_owner_list ∧ CDirect store rr.owner) ∨
    (wildcardOf rr.owner ∈ s.cname_owner_list ∧ CWild store rr.owner)
  dfact : ∀ rr ∈ s.answer, rr.rdtype = 39 →
    rr.owner ∈ s.dname_owner_list ∧ DFact store rr.owner

/-- The final-theorem-relevant part of the invariant. -/
def Weak (s : RState) : Prop :=
  (cnameOwners s.answer).Nodup ∧ (dnameOwners s.answer).Nodup

theorem RInv.weak {store : Store} {s : RState} (h : RInv store s) : Weak s :=
  ⟨h.cans, h.dans⟩

theorem weak_congr {s s' : RState} (h : Weak s) (ha : s'.answer = s.answer) : Weak s' :=
  ⟨by rw [ha]; exact h.1, by rw [ha]; exact h.2⟩

theorem inv_congr {store : Store} {s s' : RState} (h : RInv store s)
    (ha : s'.answer = s.answer) (hc : s'.cname_owner_list = s.cname_owner_list)
    (hd : s'.dname_owner_list = s.dname_owner_list) : RInv store s' := by
  constructor
  · rw [hc]; exact h.cvis
  · rw [hd]; exact h.dvis
  · rw [ha]; exact h.cans
  · rw [ha]; exact h.dans
  · rw [ha, hc]; exact h.cfact
  · rw [ha, hd]; exact h.dfact

theorem fresh_cname_owner (store : Store) (s : RState) (hInv : RInv store s)
    (r sname : DName) (hg : sname ∉ s.cname_owner_list)
    (hpre : (sname = r ∧ CDirect store r) ∨ (sname = wildcardOf r ∧ CWild store r)) :
    r ∉ cnameOwners s.answer := by
  intro hr
  rcases (mem_cnameOwners _ _).mp hr with ⟨rr, hrrm, hrrt, hrro⟩
  rcases hInv.cfact rr hrrm hrrt with ⟨hv, hdir⟩ | ⟨hv, hwld⟩
  · rw [hrro] at hv hdir
    rcases hpre with ⟨he, -⟩ | ⟨-, hw⟩
    · rw [he] at hg; exact hg hv
    · exact cdirect_cwild_incompat store r hdir hw
  · rw [hrro] at hv hwld
    rcases hpre with ⟨-, hd⟩ | ⟨he, -⟩
    · exact cdirect_cwild_incompat store r hd hwld
    · rw [he] at hg; exact hg hv

theorem cnameOwners_append_cname (ans : List RRset) (o : DName) (ttl : Nat)
    (rds : List Rdata) :
    cnameOwners (ans ++ [⟨o, 5, ttl, rds⟩]) = cnameOwners ans ++ [o] := by
  rw [cnameOwners_append]
  simp

theorem cnameOwners_append_ne (ans : List RRset) (rr : RRset) (h : rr.rdtype ≠ 5) :
    cnameOwners (ans ++ [rr]) = cnameOwners ans := by
  rw [cnameOwners_append]
  have hb : (rr.rdtype == 5) = false := by simpa using h
  simp [hb]

theorem dnameOwners_append_dname (ans : List RRset) (o : DName) (ttl : Nat)
    (rds : List Rdata) :
    dnameOwners (ans ++ [⟨o, 39, ttl, rds⟩]) = dnameOwners ans ++ [o] := by
  rw [dnameOwners_append]
  simp

theorem dnameOwners_append_ne (ans : List RRset) (rr : RRset) (h : rr.rdtype ≠ 39) :
    dnameOwners (ans ++ [rr]) = dnameOwners ans := by
  rw [dnameOwners_append]
  have hb : (rr.rdtype == 39) = false := by simpa using h
  simp [hb]

theorem find_zone_origin_suffix (store : Store) (q : DName) (z : Zone)
    (hnd : (store.map (fun p => p.1)).Nodup)
    (hkeys : ∀ p ∈ store, (p.2).origin = p.1)
    (hz : find_zone store q = some z) : z.origin <:+ q :=
  ((find_zone_some_iff store q hnd hkeys z).mp hz).2.1

theorem find_zone_sub (store : Store) (q m : DName) (z : Zone)
    (hnd : (store.map (fun p => p.1)).Nodup)
    (hkeys : ∀ p ∈ store, (p.2).origin = p.1)
    (hz : find_zone store q = some z) (h1 : z.origin <:+ m) (h2 : m <:+ q) :
    find_zone store m = some z := by
  rw [find_zone_some_iff store q hnd hkeys z] at hz
  rw [find_zone_some_iff store m hnd hkeys z]
  exact ⟨hz.1, h1, fun p hp hpm => hz.2.2 p hp (hpm.trans h2)⟩

/-- The recursion contract: `recurse` (the nested `find_answer`) sends
invariant states to states with duplicate-free alias owners. -/
def RecWeak (store : Store) (recurse : DName → Nat → RState → RState) : Prop :=
  ∀ q t s, RInv store s → Weak (recurse q t s)

theorem rinv_empty (store : Store) (s : RState) (ha : s.answer = [])
    (hc : s.cname_owner_list = []) (hd : s.dname_owner_list = []) : RInv store s := by
  constructor
  · rw [hc]; exact List.nodup_nil
  · rw [hd]; exact List.nodup_nil
  · rw [ha]; simp [cnameOwners]
  · rw [ha]; simp [dnameOwners]
  · intro rr hrr _
    rw [ha] at hrr; cases hrr
  · intro rr hrr _
    rw [ha] at hrr; cases hrr

theorem process_cname_weak (store : Store) (recurse : DName → Nat → RState → RState)
    (hrec : RecWeak store recurse)
    (r sname : DName) (stype : Nat) (rd : Rdataset) (s : RState)
    (hInv : RInv store s)
    (hpre : (sname = r ∧ CDirect store r) ∨ (sname = wildcardOf r ∧ CWild store r)) :
    Weak (process_cname recurse r sname stype rd s) := by
  unfold process_cname
  by_cases hg : sname ∈ s.cname_owner_list
  · rw [if_pos hg]
    exact weak_congr hInv.weak (by simp [setRcode])
  · rw [if_neg hg]
    have hfresh : r ∉ cnameOwners s.answer :=
      fresh_cname_owner store s hInv r sname hg hpre
    have hInv2 : RInv store (cname_append r sname rd s) := by
      constructor
      · show (s.cname_owner_list ++ [sname]).Nodup
        exact nodup_snoc _ _ hInv.cvis hg
      · show s.dname_owner_list.Nodup
        exact hInv.dvis
      · show (cnameOwners (s.answer ++ [⟨r, 5, rd.ttl, rd.rdatas⟩])).Nodup
        rw [cnameOwners_append_cname]
        exact nodup_snoc _ _ hInv.cans hfresh
      · show (dnameOwners (s.answer ++ [⟨r, 5, rd.ttl, rd.rdatas⟩])).Nodup
        rw [dnameOwners_append_ne _ _ (by simp)]
        exact hInv.dans
      · intro rr hrr ht
        rcases List.mem_append.mp hrr with hold | hnew
        · rcases hInv.cfact rr hold ht with ⟨hv, hf⟩ | ⟨hv, hf⟩
          · exact Or.inl ⟨List.mem_append_left _ hv, hf⟩
          · exact Or.inr ⟨List.mem_append_left _ hv, hf⟩
        · have hrre : rr = ⟨r, 5, rd.ttl, rd.rdatas⟩ := by simpa using hnew
          subst hrre
          rcases hpre with ⟨he, hf⟩ | ⟨he, hf⟩
          · exact Or.inl ⟨by rw [he]; exact List.mem_append_right _ (by simp), hf⟩
          · exact Or.inr ⟨by rw [he]; exact List.mem_append_right _ (by simp), hf⟩
      · intro rr hrr ht
        rcases List.mem_append.mp hrr with hold | hnew
        · rcases hInv.dfact rr hold ht with ⟨hv, hf⟩
          exact ⟨hv, hf⟩
        · have hrre : rr = ⟨r, 5, rd.ttl, rd.rdatas⟩ := by simpa using hnew
          rw [hrre] at ht
          simp at ht
    cases hh : rd.rdatas.head? with
    | none => exact hInv2.weak
    | some rd0 => exact hrec (targetOf rd0) stype _ hInv2

theorem process_dname_weak (store : Store) (recurse : DName → Nat → RState → RState)
    (hnd : (store.map (fun p => p.1)).Nodup)
    (hkeys : ∀ p ∈ store, (p.2).origin = p.1)
    (hrec : RecWeak store recurse)
    (qname sname : DName) (stype : Nat) (rd : Rdataset) (s : RState) (z : Zone)
    (hInv : RInv store s)
    (hz : find_zone store qname = some z) (hsq : sname <:+ qname)
    (hos : z.origin <:+ sname) (hrds : (get_rdataset z sname 39).isSome = true) :
    Weak (process_dname recurse qname sname stype rd s) := by
  unfold process_dname
  by_cases hg : sname ∈ s.dname_owner_list
  · rw [if_pos hg]
    exact weak_congr hInv.weak (by simp [setRcode])
  · rw [if_neg hg]
    have hzs : find_zone store sname = some z :=
      find_zone_sub store qname sname z hnd hkeys hz hos hsq
    have hfresh : sname ∉ dnameOwners s.answer := by
      intro hm
      rcases (mem_dnameOwners _ _).mp hm with ⟨rr, hrrm, hrrt, hrro⟩
      have hv := (hInv.dfact rr hrrm hrrt).1
      rw [hrro] at hv
      exact hg hv
    have hInv2 : RInv store (dname_append sname rd s) := by
      constructor
      · show s.cname_owner_list.Nodup
        exact hInv.cvis
      · show (s.dname_owner_list ++ [sname]).Nodup
        exact nodup_snoc _ _ hInv.dvis hg
      · show (cnameOwners (s.answer ++ [⟨sname, 39, rd.ttl, rd.rdatas⟩])).Nodup
        rw [cnameOwners_append_ne _ _ (by simp)]
        exact hInv.cans
      · show (dnameOwners (s.answer ++ [⟨sname, 39, rd.ttl, rd.rdatas⟩])).Nodup
        rw [dnameOwners_append_dname]
        exact nodup_snoc _ _ hInv.dans hfresh
      · intro rr hrr ht
        rcases List.mem_append.mp hrr with hold | hnew
        · rcases hInv.cfact rr hold ht with ⟨hv, hf⟩ | ⟨hv, hf⟩
          · exact Or.inl ⟨hv, hf⟩
          · exact Or.inr ⟨hv, hf⟩
        · have hrre : rr = ⟨sname, 39, rd.ttl, rd.rdatas⟩ := by simpa using hnew
          rw [hrre] at ht
          simp at ht
      · intro rr hrr ht
        rcases List.mem_append.mp hrr with hold | hnew
        · rcases hInv.dfact rr hold ht with ⟨hv, hf⟩
          exact ⟨List.mem_append_left _ hv, hf⟩
        · have hrre : rr = ⟨sname, 39, rd.ttl, rd.rdatas⟩ := by simpa using hnew
          subst hrre
          exact ⟨List.mem_append_right _ (by simp), ⟨z, hzs, hrds⟩⟩
    cases hh : rd.rdatas.head? with
    | none => exact hInv2.weak
    | some rd0 =>
      show Weak (if 255 < nameWire (relativize qname sname ++ targetOf rd0) then
          setRcode (dname_append sname rd s) 6
        else
          process_cname recurse qname qname stype
            ⟨5, rd.ttl, [Rdata.cnameR (relativize qname sname ++ targetOf rd0)]⟩
            (dname_append sname rd s))
      by_cases hw : 255 < nameWire (relativize qname sname ++ targetOf rd0)
      · rw [if_pos hw]
        exact weak_congr hInv2.weak (by simp [setRcode])
      · rw [if_neg hw]
        apply process_cname_weak store recurse hrec qname qname stype _ _ hInv2
        exact Or.inl ⟨rfl, ⟨z, hz, Or.inr ⟨sname, hsq, hos, hrds⟩⟩⟩

theorem find_rrtype_weak_direct (store : Store) (recurse : DName → Nat → RState → RState)
    (hrec : RecWeak store recurse)
    (z : Zone) (sname : DName) (stype : Nat) (s : RState)
    (hInv : RInv store s)
    (hz : find_zone store sname = some z)
    (hd39 : get_rdataset z sname 39 = none) :
    Weak (find_rrtype recurse z sname stype none s) := by
  unfold find_rrtype
  cases h5 : get_rdataset z sname 5 with
  | some cn =>
    exact process_cname_weak store recurse hrec sname sname stype cn s hInv
      (Or.inl ⟨rfl, ⟨z, hz, Or.inl (by rw [h5]; rfl)⟩⟩)
  | none =>
    cases ht : get_rdataset z sname stype with
    | some rdt =>
      have h5ne : stype ≠ 5 := by
        intro he; rw [he, h5] at ht; cases ht
      have h39ne : stype ≠ 39 := by
        intro he; rw [he, hd39] at ht; cases ht
      constructor
      · show (cnameOwners (s.answer ++
          [⟨(none : Option DName).getD sname, stype, rdt.ttl, rdt.rdatas⟩])).Nodup
        rw [cnameOwners_append_ne _ _ h5ne]
        exact hInv.cans
      · show (dnameOwners (s.answer ++
          [⟨(none : Option DName).getD sname, stype, rdt.ttl, rdt.rdatas⟩])).Nodup
        rw [dnameOwners_append_ne _ _ h39ne]
        exact hInv.dans
    | none =>
      exact weak_congr hInv.weak (add_soa_frame z s).1

theorem find_rrtype_weak_wild (store : Store) (recurse : DName → Nat → RState → RState)
    (hrec : RecWeak store recurse)
    (z : Zone) (r : DName) (stype : Nat) (s : RState)
    (hInv : RInv store s)
    (hz : find_zone store r = some z)
    (hnode : getNode z r = none)
    (hanc : NoDnameAnc z r) :
    Weak (find_rrtype recurse z (wildcardOf r) stype (some r) s) := by
  unfold find_rrtype
  cases h5 : get_rdataset z (wildcardOf r) 5 with
  | some cn =>
    exact process_cname_weak store recurse hrec r (wildcardOf r) stype cn s hInv
      (Or.inr ⟨rfl, ⟨z, hz, hnode, by rw [h5]; rfl, hanc⟩⟩)
  | none =>
    cases ht : get_rdataset z (wildcardOf r) stype with
    | some rdt =>
      have h5ne : stype ≠ 5 := by
        intro he; rw [he, h5] at ht; cases ht
      constructor
      · show (cnameOwners (s.answer ++
          [⟨(some r).getD (wildcardOf r), stype, rdt.ttl, rdt.rdatas⟩])).Nodup
        rw [cnameOwners_append_ne _ _ h5ne]
        exact hInv.cans
      · show (dnameOwners (s.answer ++
          [⟨(some r).getD (wildcardOf r), stype, rdt.ttl, rdt.rdatas⟩])).Nodup
        by_cases h39 : stype = 39
        · subst h39
          have hfresh : r ∉ dnameOwners s.answer := by
            intro hm
            rcases (mem_dnameOwners _ _).mp hm with ⟨rr, hrrm, hrrt, hrro⟩
            rcases (hInv.dfact rr hrrm hrrt).2 with ⟨z2, hz2, hsome⟩
            rw [hrro] at hz2 hsome
            have hzz : z2 = z := by
              rw [hz2] at hz
              exact Option.some.inj hz
            rw [hzz] at hsome
            have := get_rdataset_isSome_node z r 39 hsome
            rw [hnode] at this
            cases this
          have : ((some r).getD (wildcardOf r)) = r := rfl
          rw [this, dnameOwners_append_dname]
          exact nodup_snoc _ _ hInv.dans hfresh
        · rw [dnameOwners_append_ne _ _ h39]
          exact hInv.dans
    | none =>
      exact weak_congr hInv.weak (add_soa_frame z s).1

theorem process_name_weak (store : Store) (recurse : DName → Nat → RState → RState)
    (hnd : (store.map (fun p => p.1)).Nodup)
    (hkeys : ∀ p ∈ store, (p.2).origin = p.1)
    (hrec : RecWeak store recurse)
    (z : Zone) (qname cur : DName) (stype : Nat) (s : RState)
    (hInv : RInv store s)
    (hz : find_zone store qname = some z) (hcq : cur <:+ qname)
    (hoc : z.origin <:+ cur)
    (hW : ∀ m, m <:+ cur → m ≠ cur → z.origin <:+ m →
      (getNode z m).isSome = true ∧ get_rdataset z m 39 = none) :
    Weak ((process_name recurse z qname cur stype s).2) := by
  have hzc : find_zone store cur = some z :=
    find_zone_sub store qname cur z hnd hkeys hz hoc hcq
  cases h1 : getNode z cur with
  | none =>
    cases h2 : (getNode z (wildcardOf cur)).isSome with
    | true =>
      simp only [process_name, h1, h2, if_true]
      exact find_rrtype_weak_wild store recurse hrec z cur stype s hInv hzc h1
        (fun D hDs hDne hDo => (hW D hDs hDne hDo).2)
    | false =>
      simp only [process_name, h1, h2, Bool.false_eq_true, if_false]
      exact weak_congr hInv.weak
        (((add_soa_frame z (setRcode s 3)).1).trans (by simp [setRcode]))
  | some nd =>
    cases h3 : get_rdataset z cur 39 with
    | some dn =>
      simp only [process_name, h1, h3]
      exact process_dname_weak store recurse hnd hkeys hrec qname cur stype dn s z hInv
        hz hcq hoc (by rw [h3]; rfl)
    | none =>
      cases h4 : (if cur ≠ z.origin then get_rdataset z cur 2 else none) with
      | some ns =>
        simp only [process_name, h1, h3, h4]
        exact weak_congr hInv.weak (do_referral_frame z cur ns s).1
      | none =>
        by_cases h5 : cur ≠ qname
        · simp only [process_name, h1, h3, h4, if_pos h5]
          exact hInv.weak
        · have hceq : cur = qname := not_ne_iff.mp h5
          simp only [process_name, h1, h3, h4, if_neg h5]
          exact find_rrtype_weak_direct store recurse hrec z cur stype s hInv hzc h3

theorem walk_loop_weak (store : Store) (recurse : DName → Nat → RState → RState)
    (hnd : (store.map (fun p => p.1)).Nodup)
    (hkeys : ∀ p ∈ store, (p.2).origin = p.1)
    (hrec : RecWeak store recurse)
    (z : Zone) (qname : DName) (stype : Nat) :
    ∀ (rl : List Label) (cur : DName) (s : RState),
      RInv store s → find_zone store qname = some z →
      z.origin <:+ cur → cur <:+ qname → qname = rl.reverse ++ cur →
      (∀ m, m <:+ cur → m ≠ cur → z.origin <:+ m →
        (getNode z m).isSome = true ∧ get_rdataset z m 39 = none) →
      Weak (walk_loop recurse z qname stype rl cur s) := by
  intro rl
  induction rl with
  | nil =>
    intro cur s hInv hz hoc hcq hq hW
    show Weak ((process_name recurse z qname cur stype s).2)
    exact process_name_weak store recurse hnd hkeys hrec z qname cur stype s hInv
      hz hcq hoc hW
  | cons l rest ih =>
    intro cur s hInv hz hoc hcq hq hW
    have hq' : qname = rest.reverse ++ (l :: cur) := by
      rw [hq, List.reverse_cons, List.append_assoc, List.singleton_append]
    unfold walk_loop
    cases hpn : process_name recurse z qname cur stype s with
    | mk fin s' =>
      cases fin with
      | true =>
        have hwk := process_name_weak store recurse hnd hkeys hrec z qname cur stype s
          hInv hz hcq hoc hW
        rw [hpn] at hwk
        exact hwk
      | false =>
        rcases process_name_cases recurse z qname cur stype s with ⟨heq, hn, hd39, -⟩ | htrue
        · rw [hpn] at heq
          have hs' : s' = s := by simpa using congrArg Prod.snd heq
          rw [hs']
          apply ih (l :: cur) s hInv hz (hoc.trans (List.suffix_cons l cur))
            (by rw [hq']; exact List.suffix_append _ _) hq'
          intro m hm hmne hmo
          rcases List.suffix_cons_iff.mp hm with he | hmc
          · exact absurd he hmne
          · by_cases hmc2 : m = cur
            · subst hmc2
              exact ⟨hn, hd39⟩
            · exact hW m hmc hmc2 hmo
        · rw [hpn] at htrue
          simp at htrue

theorem find_answer_weak (store : Store)
    (hnd : (store.map (fun p => p.1)).Nodup)
    (hkeys : ∀ p ∈ store, (p.2).origin = p.1) :
    ∀ (fuel : Nat) (q : DName) (t : Nat) (s : RState), RInv store s →
      Weak (find_answer store fuel q t s) := by
  intro fuel
  induction fuel with
  | zero =>
    intro q t s hInv
    exact hInv.weak
  | succ f ih =>
    intro q t s hInv
    unfold find_answer
    cases hz : find_zone store q with
    | none =>
      by_cases he : s.answer.isEmpty
      · rw [if_pos he]
        exact weak_congr hInv.weak (by simp [setRcode])
      · rw [if_neg he]
        exact hInv.weak
    | some z =>
      unfold find_answer_in_zone
      have horig : z.origin <:+ q := find_zone_origin_suffix store q z hnd hkeys hz
      apply walk_loop_weak store (find_answer store f) hnd hkeys
        (fun q t s h => ih q t s h) z q t _ z.origin s hInv hz List.suffix_rfl horig
      · rw [List.reverse_reverse]
        exact (suffix_take_append horig).symm
      · intro m hm hmne hmo
        exfalso
        have h1 := hm.length_le
        have h2 := hmo.length_le
        exact hmne (hm.eq_of_length (by omega))

theorem prepare_response_weak (store : Store) (prefs : SrvPrefs) (fuel : Nat)
    (q : QueryMsg)
    (hnd : (store.map (fun p => p.1)).Nodup)
    (hkeys : ∀ p ∈ store, (p.2).origin = p.1) :
    Weak (prepare_response prefs store fuel q) := by
  have hrest : ∀ s : RState, RInv store s → Weak (prepare_rest store fuel q s) := by
    intro s hInv
    unfold prepare_rest
    by_cases hcl : q.qclass ≠ 1
    · rw [if_pos hcl]
      exact weak_congr hInv.weak (by simp [setRcode])
    · rw [if_neg hcl]
      have hInv1 : RInv store (if query_meta_type q.qtype then setRcode s 4 else s) := by
        cases hmt : query_meta_type q.qtype
        · simpa using hInv
        · exact inv_congr hInv (by simp [setRcode]) (by simp [setRcode]) (by simp [setRcode])
      have hw := find_answer_weak store hnd hkeys fuel q.qname q.qtype _ hInv1
      exact weak_congr hw ((aa_if_fields _ _).1)
  unfold prepare_response
  by_cases h1 : prefs.ednsUdpMax = 0
  · rw [if_pos h1]
    exact hrest _ (rinv_empty store _ rfl rfl rfl)
  · by_cases h2 : q.edns ≠ -1
    · rw [if_neg h1, if_pos h2]
      exact hrest _ (rinv_empty store _ rfl rfl rfl)
    · have h3 : q.edns = -1 := not_not.mp h2
      have h4 : ¬ (q.edns > 0) := by rw [h3]; decide
      rw [if_neg h1, if_neg h2, if_neg h4]
      exact hrest _ (rinv_empty store _ rfl rfl rfl)

/-- C8: no owner name is appended twice to the answer section as a CNAME
record, and likewise for DNAME; and the loop-protection mechanism is exact:
when `process_cname` (resp. `process_dname`) meets an owner already in its
visited list, it sets RCODE SERVFAIL and appends nothing.  The store
hypotheses state that the loaded zones are keyed by their (distinct)
origins. -/
theorem c8_no_duplicate_alias_owners (store : Store) (prefs : SrvPrefs)
    (fuel : Nat) (q : QueryMsg)
    (hnd : (store.map (fun p => p.1)).Nodup)
    (hkeys : ∀ p ∈ store, (p.2).origin = p.1) :
    (∀ (recurse : DName → Nat → RState → RState) (rrname sname : DName)
        (stype : Nat) (rd : Rdataset) (s : RState),
        sname ∈ s.cname_owner_list →
        process_cname recurse rrname sname stype rd s = setRcode s 2) ∧
    (∀ (recurse : DName → Nat → RState → RState) (qn sname : DName)
        (stype : Nat) (rd : Rdataset) (s : RState),
        sname ∈ s.dname_owner_list →
        process_dname recurse qn sname stype rd s = setRcode s 2) ∧
    (cnameOwners (prepare_response prefs store fuel q).answer).Nodup ∧
    (dnameOwners (prepare_response prefs store fuel q).answer).Nodup := by
  refine ⟨?_, ?_, ?_, ?_⟩
  · intro recurse rrname sname stype rd s h
    unfold process_cname
    rw [if_pos h]
  · intro recurse qn sname stype rd s h
    unfold process_dname
    rw [if_pos h]
  · exact (prepare_response_weak store prefs fuel q hnd hkeys).1
  · exact (prepare_response_weak store prefs fuel q hnd hkeys).2

/-- Concrete instances of `c8_no_duplicate_alias_owners`: the SERVFAIL
guards at a visited owner, and duplicate-free alias owners for a CNAME
chain query and a DNAME query on the demonstration store. -/
theorem c8_no_duplicate_alias_owners_witness :
    (process_cname (find_answer demoStore 3) ["p"] ["p"] 1 ⟨5, 1, []⟩ demoStateA =
      setRcode demoStateA 2) ∧
    (process_dname (find_answer demoStore 3) ["p"] ["d"] 1 ⟨39, 1, []⟩ demoStateA =
      setRcode demoStateA 2) ∧
    (cnameOwners (prepare_response demoPrefs demoStore 10
      (mkQ ["x","alias","example"] 1)).answer).Nodup ∧
    (dnameOwners (prepare_response demoPrefs demoStore 10
      (mkQ ["x","alias","example"] 1)).answer).Nodup :=
  ⟨(c8_no_duplicate_alias_owners demoStore demoPrefs 10 (mkQ ["x","alias","example"] 1)
      (by decide) (by decide)).1 (find_answer demoStore 3) ["p"] ["p"] 1 ⟨5, 1, []⟩
      demoStateA (by decide),
   (c8_no_duplicate_alias_owners demoStore demoPrefs 10 (mkQ ["x","alias","example"] 1)
      (by decide) (by decide)).2.1 (find_answer demoStore 3) ["p"] ["d"] 1 ⟨39, 1, []⟩
      demoStateA (by decide),
   (c8_no_duplicate_alias_owners demoStore demoPrefs 10 (mkQ ["x","alias","example"] 1)
      (by decide) (by decide)).2.2.1,
   (c8_no_duplicate_alias_owners demoStore demoPrefs 10 (mkQ ["x","alias","example"] 1)
      (by decide) (by decide)).2.2.2⟩
